import Mathlib

/-!
Verification development for the `ifs-extractor` OpenAPI-catalog pipeline
(`parse_openapi.py`, `process_json.py`).

The Python sources are shallowly embedded: dictionaries become association
lists (Python 3.7+ dicts preserve insertion order, which the code relies on),
Python strings become Lean `String`s, JSON values become the inductive `Json`
below, and every Python string primitive the code uses (`str.split`,
`str.startswith`, `in`, `str.lstrip`, slicing) is modelled by an executable
Lean function with the same semantics on the inputs the code feeds it.

Fields of the catalog records that no claim mentions and that no modelled
computation reads (`description`, `tags`, `filters`, `payload_fields`,
`response_fields`, `request_body`, `responses`) are omitted from the record
types; they are carried verbatim by the Python code and never influence
names, classification, sorting, or id assignment.
-/

namespace IfsExtractor

/-! ## Python string primitives -/

/-- Worker for `splitChars`: `skip` counts separator characters still to be
consumed after a match. Structural recursion on the list, so concrete
instances reduce in the kernel. -/
def splitCharsGo (sep : List Char) : Nat → List Char → List (List Char)
  | _ + 1, [] => [[]]
  | k + 1, _ :: rest => splitCharsGo sep k rest
  | 0, [] => [[]]
  | 0, c :: rest =>
    if sep ≠ [] ∧ sep.isPrefixOf (c :: rest) then
      [] :: splitCharsGo sep (sep.length - 1) rest
    else
      match splitCharsGo sep 0 rest with
      | [] => [[c]]
      | r :: rs => (c :: r) :: rs

/-- Python `s.split(sep)` on character lists, for a non-empty separator:
greedy left-to-right scan, `[[]]` on the empty string. -/
def splitChars (sep l : List Char) : List (List Char) :=
  splitCharsGo sep 0 l

/-- Python `s.split(sep)` (separator given, non-empty in every use site). -/
def pySplit (s sep : String) : List String :=
  (splitChars sep.toList s.toList).map String.mk

/-- Python `pat in s` (substring containment, for non-empty `pat`). -/
def pyContains (s pat : String) : Bool :=
  (pySplit s pat).length != 1

/-- Python `s.startswith(p)`. -/
def pyStartsWith (s p : String) : Bool :=
  p.toList.isPrefixOf s.toList

/-- Python `s.endswith(p)`. -/
def pyEndsWith (s p : String) : Bool :=
  p.toList.isSuffixOf s.toList

/-- Python `s[n:]`. -/
def pyDrop (s : String) (n : Nat) : String :=
  String.mk (s.toList.drop n)

/-- Python `s[:-n]` for `n ≤ len s`. -/
def pyDropRight (s : String) (n : Nat) : String :=
  String.mk (s.toList.take (s.toList.length - n))

/-- Python `s.lstrip('/')`. -/
def pyLstripSlash (s : String) : String :=
  String.mk (s.toList.dropWhile (· = '/'))

/-- Python `c in s` for a single character. -/
def hasChar (s : String) (c : Char) : Bool :=
  s.toList.contains c

/-- The part of `s` before the first occurrence of character `c`
(Python `s.split(c)[0]`). -/
def beforeChar (s : String) (c : Char) : String :=
  String.mk (s.toList.takeWhile (· ≠ c))

/-- Python `s.split(sep)[-1]`: the part after the last occurrence of `sep`
(the whole string when `sep` does not occur). -/
def afterLast (s sep : String) : String :=
  (pySplit s sep).getLastD ""

/-- Case-lowering key used by Python's `x['name'].lower()` sort key, as a
code-point list (ASCII lowering, which is what the identifiers in play use). -/
def lowerKey (s : String) : List Nat :=
  s.toList.map (fun c => if 65 ≤ c.toNat ∧ c.toNat ≤ 90 then c.toNat + 32 else c.toNat)

/-- Lexicographic `≤` on code-point lists: Python string comparison. -/
def lexLe : List Nat → List Nat → Bool
  | [], _ => true
  | _ :: _, [] => false
  | a :: as_, b :: bs =>
    if a < b then true
    else if b < a then false
    else lexLe as_ bs

/-! ## JSON values

Python objects deserialized from JSON: `None`, booleans, numbers, strings,
lists, dicts.  Dicts are insertion-ordered association lists with unique
keys (uniqueness holds for anything `json.load` produces). -/

inductive Json where
  | null : Json
  | bool : Bool → Json
  | num : Int → Json
  | str : String → Json
  | arr : List Json → Json
  | obj : List (String × Json) → Json

/-- Python `v is None`. -/
def Json.isNull : Json → Bool
  | .null => true
  | _ => false

/-- First-match association lookup: Python `d[k]` / `d.get(k)` on a dict. -/
def lookupRaw : List (String × Json) → String → Option Json
  | [], _ => none
  | (k, v) :: rest, key => if k = key then some v else lookupRaw rest key

/-- Python `k in d` (key membership, regardless of the stored value). -/
def hasKeyList (fs : List (String × Json)) (k : String) : Bool :=
  (lookupRaw fs k).isSome

/-- Python `k in j` for a dict value.  (On a non-dict Python raises
`TypeError`; the pipeline only reaches this with dicts.) -/
def hasKeyJ (j : Json) (k : String) : Bool :=
  match j with
  | .obj fs => hasKeyList fs k
  | _ => false

/-- Python `d.get(k, dflt)`: the stored value when the key is present (even
when that value is `None`), otherwise the default. -/
def pyGetD (j : Json) (k : String) (dflt : Json) : Json :=
  match j with
  | .obj fs => (lookupRaw fs k).getD dflt
  | _ => dflt

/-- Python `d.get(k)` (defaulting to `None`). -/
def pyGet (j : Json) (k : String) : Json :=
  pyGetD j k Json.null

def Json.isObj : Json → Bool
  | .obj _ => true
  | _ => false

/-- Coerce a Json string to a Lean string (the code only feeds strings where
this is used; anything else would raise in Python). -/
def Json.asStr : Json → String
  | .str s => s
  | _ => ""

/-! ## 4.1 Reference Resolver — `resolve_ref` (parse_openapi.py:17) -/

/-- The root the walk starts from: `spec.get('openapi_spec', spec)`. -/
def refStart (spec : Json) : Json :=
  match spec with
  | .obj fs => (lookupRaw fs "openapi_spec").getD spec
  | _ => spec

/-- The loop of `resolve_ref`: follow each part as a dict key; a missing key
or non-dict node yields `{}`; at the end, return the node if it is a dict,
else `{}` (`return result if isinstance(result, dict) else {}`). -/
def refWalk : Json → List String → Json
  | .obj fs, [] => .obj fs
  | _, [] => .obj []
  | .obj fs, p :: ps =>
    match lookupRaw fs p with
    | some v => refWalk v ps
    | none => .obj []
  | _, _ :: _ => .obj []

/-- `resolve_ref(spec, ref)`: `''` or a pointer not starting with `#/`
yields `{}`; otherwise split `ref[2:]` on `/` and walk. -/
def resolve_ref (spec : Json) (ref : String) : Json :=
  if ref = "" ∨ pyStartsWith ref "#/" = false then .obj []
  else refWalk (refStart spec) (pySplit (pyDrop ref 2) "/")

/-- Pure partial lookup chain (for stating what `refWalk` computes):
`none` as soon as a segment misses or an intermediate node is not a dict. -/
def chainLookup : Json → List String → Option Json
  | j, [] => some j
  | .obj fs, p :: ps =>
    match lookupRaw fs p with
    | some v => chainLookup v ps
    | none => none
  | _, _ :: _ => none

/-! ## 4.2 Schema Extractor — `extract_schema_properties` (parse_openapi.py:34) -/

/-- Replace the value stored at `k` (used for `prop_info['type'] = ...`,
which keeps the key's position in the dict). -/
def dictSet (l : List (String × Json)) (k : String) (v : Json) : List (String × Json) :=
  l.map (fun kv => if kv.1 = k then (k, v) else kv)

/-- The `prop_info` dict for one property, before the `None` filter:
keys in Python insertion order. -/
def propInfoRaw (prop_def : Json) : List (String × Json) :=
  let base : List (String × Json) :=
    [("type", pyGetD prop_def "type" (.str "unknown")),
     ("description", pyGetD prop_def "description" (.str "")),
     ("maxLength", pyGet prop_def "maxLength"),
     ("format", pyGet prop_def "format"),
     ("example", pyGet prop_def "example")]
  if hasKeyJ prop_def "$ref" then
    dictSet base "type" (.str "enum/reference") ++ [("$ref", pyGet prop_def "$ref")]
  else base

/-- `{k: v for k, v in prop_info.items() if v is not None}`. -/
def propDescriptor (prop_def : Json) : List (String × Json) :=
  (propInfoRaw prop_def).filter (fun kv => !kv.2.isNull)

/-- The `properties` items the extractor iterates over.  (`'properties' in
schema` then `.items()`; a non-dict value would raise in Python.) -/
def schemaPropsList (schema : Json) : List (String × Json) :=
  match schema with
  | .obj fs =>
    match lookupRaw fs "properties" with
    | some (.obj props) => props
    | _ => []
  | _ => []

structure SchemaProps where
  required : Json
  properties : List (String × List (String × Json))

/-- The schema after resolving a top-level `$ref` wrapper (`if '$ref' in
schema: schema = resolve_ref(spec, schema['$ref'])`). -/
def schemaAfterRef (spec schema : Json) : Json :=
  if hasKeyJ schema "$ref" then resolve_ref spec (pyGet schema "$ref").asStr
  else schema

/-- `extract_schema_properties(spec, schema)`: resolve a top-level `$ref`
wrapper, then emit `required` and the per-property descriptors. -/
def extract_schema_properties (spec schema : Json) : SchemaProps :=
  let schema1 := schemaAfterRef spec schema
  { required := pyGetD schema1 "required" (.arr [])
    properties := (schemaPropsList schema1).map (fun kv => (kv.1, propDescriptor kv.2)) }

/-- The source schema of claim C9's counterexample: one property whose
definition is the empty dict. -/
def exSchema9 : Json := Json.obj [("properties", Json.obj [("p", Json.obj [])])]

/-! ## 4.4 Operation Classifier — `identify_entity_type` (parse_openapi.py:192) -/

structure EntityInfo where
  is_reference : Bool
  is_action : Bool
  is_function : Bool
  is_nested : Bool
  parent_entity : Option String
  entity_name : Option String
  action_name : Option String

/-- The nested-entity scan: `for i, part in enumerate(parts[1:], 1): if '('
in part and i < len(parts) - 1: ... break`.  The loop hits iff some segment
at an index in `[1, len-2]` contains `'('`; parent and child do not depend
on which index hits, so the `break` is equivalent to this `any`. -/
def nestedHit (parts : List String) : Bool :=
  (parts.drop 1).dropLast.any (fun part => hasChar part '(')

/-- `identify_entity_type(path)`. -/
def identify_entity_type (path : String) : EntityInfo :=
  let is_reference := pyStartsWith path "/Reference_"
  let is_action := pyContains path "/IfsApp." && !pyEndsWith path ")"
  let action_name := if is_action then some (afterLast path "/IfsApp.") else none
  let is_function := hasChar path '(' && pyEndsWith path ")" && pyContains path "/IfsApp."
  let parts := pySplit path "/"
  let is_nested := decide (parts.length > 2) && nestedHit parts
  let parent_entity :=
    if is_nested then some (beforeChar (parts.getD 1 "") '(') else none
  let nested_name :=
    if is_nested then some (beforeChar (parts.getLastD "") '(') else none
  let main_name := beforeChar (if parts.length > 1 then parts.getD 1 "" else "") '('
  let entity_name :=
    match nested_name with
    | some n => if n = "" then some main_name else some n
    | none => some main_name
  { is_reference := is_reference
    is_action := is_action
    is_function := is_function
    is_nested := is_nested
    parent_entity := parent_entity
    entity_name := entity_name
    action_name := action_name }

/-- The five classification buckets of `parse_openapi_spec`
(parse_openapi.py:304). -/
inductive Category where
  | action | function | reference | nested | primary
deriving DecidableEq, Repr

/-- The `if/elif` dispatch of `parse_openapi_spec`: action > function >
reference > nested > primary. -/
def classifyPath (path : String) : Category :=
  let e := identify_entity_type path
  if e.is_action then .action
  else if e.is_function then .function
  else if e.is_reference then .reference
  else if e.is_nested then .nested
  else .primary

/-! ## 4.6 Name Synthesizer (parse_openapi.py:540, 553, 579, 596, 622, 632) -/

/-- `camel_to_readable(name)`: insert a space before every uppercase ASCII
letter that is not the first character (`re.sub(r'(?<!^)(?=[A-Z])', ' ', name)`). -/
def camel_to_readable (name : String) : String :=
  match name.toList with
  | [] => ""
  | c :: rest =>
    String.mk (c :: rest.flatMap (fun d => if 'A' ≤ d ∧ d ≤ 'Z' then [' ', d] else [d]))

/-- `extract_action_name_from_path(path)`. -/
def extract_action_name_from_path (path : String) : Option String :=
  if pyContains path "/IfsApp." then
    let action_part := afterLast path "/IfsApp."
    let action_part :=
      if hasChar action_part '(' then beforeChar action_part '(' else action_part
    if hasChar action_part '_' then some (afterLast action_part "_")
    else none
  else none

/-- `extract_entity_name_from_path(path)`. -/
def extract_entity_name_from_path (path : String) : String :=
  let path := pyLstripSlash path
  if hasChar path '(' then beforeChar path '('
  else if hasChar path '/' then beforeChar path '/'
  else path

/-- `extract_nested_resource_from_path(path)`. -/
def extract_nested_resource_from_path (path : String) : Option String :=
  let path := pyLstripSlash path
  if hasChar path '(' && hasChar path ')' then
    let after_params := afterLast path ")"
    if pyStartsWith after_params "/" then
      let nested_part := pyDrop after_params 1
      if pyStartsWith nested_part "IfsApp." then none
      else
        let nested_part :=
          if hasChar nested_part '/' then beforeChar nested_part '/' else nested_part
        if nested_part ≠ "" then some nested_part else none
    else none
  else none

/-- A path parameter as carried in `path_params` with data types
(`{'key': ..., 'type': ..., 'enum': ...}`). -/
structure PParam where
  key : String
  ptype : String
  penum : Option (List String)
deriving DecidableEq, Repr

/-- `get_primary_key(path_params)`: the first path param's `key`. -/
def get_primary_key (path_params : List PParam) : Option String :=
  match path_params with
  | [] => none
  | p :: _ => some p.key

/-- `generate_api_name(method, entity_name, path_params, action_name,
nested_resource)`.  `path_params` is `None` or a list, as in the code. -/
def generate_api_name (method : String) (entity_name : String)
    (path_params : Option (List PParam)) (action_name : Option String)
    (nested_resource : Option String) : String :=
  let has_params :=
    match path_params with
    | none => false
    | some l => decide (l.length > 0)
  let primary_key :=
    if has_params then get_primary_key (path_params.getD []) else none
  let readable_entity := camel_to_readable entity_name
  let readable_entity :=
    match nested_resource with
    | some nr => readable_entity ++ " " ++ camel_to_readable nr
    | none => readable_entity
  match action_name with
  | some an =>
    let readable_action := camel_to_readable an
    if has_params then readable_action ++ " by " ++ (primary_key.getD "")
    else readable_action
  | none =>
    if method = "GET" then
      if has_params then "Get " ++ readable_entity ++ " by " ++ (primary_key.getD "")
      else "List " ++ readable_entity
    else if method = "POST" then
      "Create " ++ readable_entity
    else if method = "PATCH" then
      if has_params then "Update " ++ readable_entity ++ " by " ++ (primary_key.getD "")
      else "Update " ++ readable_entity
    else if method = "PUT" then
      if has_params then "Replace " ++ readable_entity ++ " by " ++ (primary_key.getD "")
      else "Replace " ++ readable_entity
    else if method = "DELETE" then
      if has_params then "Delete " ++ readable_entity ++ " by " ++ (primary_key.getD "")
      else "Delete " ++ readable_entity
    else readable_entity

/-! ## Association-list helpers (Python dicts, insertion-ordered) -/

def alistGet {α : Type} : List (String × α) → String → Option α
  | [], _ => none
  | (k, v) :: rest, key => if k = key then some v else alistGet rest key

def alistHas {α : Type} (m : List (String × α)) (k : String) : Bool :=
  (alistGet m k).isSome

/-- Update the value stored under `k` (first match; keys are unique in every
dict the pipeline builds). -/
def alistUpd {α : Type} : List (String × α) → String → (α → α) → List (String × α)
  | [], _, _ => []
  | (k, v) :: rest, key, f =>
    if k = key then (k, f v) :: rest else (k, v) :: alistUpd rest key f

/-! ## 4.3 Parameter Extractor — `extract_parameters` (parse_openapi.py:150)

Input parameters keep the attributes the extractor reads (`name`, `in`,
`schema.type`, `schema.enum`, `schema.items.enum`); `description` and
`required` are copied through by the code and read by nothing modelled
here, so they are omitted. -/

structure InParam where
  pname : String
  loc : Option String
  schemaType : Option String
  schemaEnum : Option (List String)
  itemsEnum : Option (List String)
deriving DecidableEq, Repr

/-- A `param_info` record as bucketed by `extract_parameters` (restricted to
the attributes later stages read: `name`, `type`, `enum`). -/
structure ParamInfo where
  pname : String
  ptype : String
  penum : Option (List String)
deriving DecidableEq, Repr

def mkParamInfo (p : InParam) : ParamInfo :=
  let base_enum :=
    match p.schemaEnum with
    | some e => some (e.take 10)
    | none => none
  let penum :=
    match p.itemsEnum with
    | some e => some (e.take 10)
    | none => base_enum
  { pname := p.pname, ptype := p.schemaType.getD "string", penum := penum }

structure ExtractedParams where
  path_params : List ParamInfo
  query_params : List ParamInfo
  header_params : List ParamInfo
  filters : List ParamInfo
deriving DecidableEq, Repr

def filterKeywords : List String :=
  ["$filter", "$select", "$orderby", "$top", "$skip", "$count"]

/-- `extract_parameters(parameters)`: bucket by `param.get('in', 'query')`;
query params named by an OData keyword are additionally copied to
`filters`; other locations are dropped. -/
def extract_parameters (parameters : List InParam) : ExtractedParams :=
  parameters.foldl
    (fun acc p =>
      let info := mkParamInfo p
      let location := p.loc.getD "query"
      if location = "path" then { acc with path_params := acc.path_params ++ [info] }
      else if location = "header" then { acc with header_params := acc.header_params ++ [info] }
      else if location = "query" then
        if filterKeywords.contains info.pname then
          { acc with query_params := acc.query_params ++ [info],
                     filters := acc.filters ++ [info] }
        else { acc with query_params := acc.query_params ++ [info] }
      else acc)
    { path_params := [], query_params := [], header_params := [], filters := [] }

/-! ## 4.5 Spec Aggregator — `parse_openapi_spec` (parse_openapi.py:233)

Only the parts the claims and the downstream catalog stage consume are
modelled: per-category operation groupings, endpoint counters, and the
`base_url`.  `summary/description/tags/request_body/responses` ride along
in the Python records and are read by nothing modelled here. -/

def pyUpper (s : String) : String :=
  String.mk (s.toList.map (fun c => if 'a' ≤ c ∧ c ≤ 'z' then Char.ofNat (c.toNat - 32) else c))

/-- An operation record (one verb on one path), restricted to the fields
later stages read. -/
structure Api where
  path : String
  method : String
  pathParams : List ParamInfo
deriving DecidableEq, Repr

/-- One verb-keyed operation entry of a path item. -/
structure Operation where
  parameters : List InParam
deriving DecidableEq, Repr

/-- A `paths` entry: the verb-keyed operations plus the path-level
`parameters` list. -/
structure PathItem where
  ops : List (String × Operation)
  parameters : List InParam

structure EntityData where
  apis : List Api

structure NestedData where
  parent_entity : String
  nested_entity : String
  full_path_pattern : String
  apis : List Api

structure Summary where
  total_endpoints : Nat
  total_actions : Nat
  total_functions : Nat
  methods_count : List (String × Nat)

structure ParsedData where
  base_url : String
  entities : List (String × EntityData)
  nested_entities : List (String × NestedData)
  reference_entities : List (String × EntityData)
  actions : List (String × List Api)
  functions : List (String × List Api)
  summary : Summary

def emptyParsed (base_url : String) : ParsedData :=
  { base_url := base_url, entities := [], nested_entities := [],
    reference_entities := [], actions := [], functions := [],
    summary := { total_endpoints := 0, total_actions := 0,
                 total_functions := 0, methods_count := [] } }

def fiveLower : List String := ["get", "post", "put", "patch", "delete"]

def incrCount (m : List (String × Nat)) (k : String) : List (String × Nat) :=
  if alistHas m k then alistUpd m k (· + 1) else m ++ [(k, 1)]

def addEntityApi (m : List (String × EntityData)) (k : String) (api : Api) :
    List (String × EntityData) :=
  if alistHas m k then alistUpd m k (fun d => { d with apis := d.apis ++ [api] })
  else m ++ [(k, { apis := [api] })]

def addListApi (m : List (String × List Api)) (k : String) (api : Api) :
    List (String × List Api) :=
  if alistHas m k then alistUpd m k (fun l => l ++ [api])
  else m ++ [(k, [api])]

def addNestedApi (m : List (String × NestedData)) (parent child path : String)
    (api : Api) : List (String × NestedData) :=
  let key := parent ++ "/" ++ child
  if alistHas m key then alistUpd m key (fun d => { d with apis := d.apis ++ [api] })
  else m ++ [(key, { parent_entity := parent, nested_entity := child,
                     full_path_pattern := path, apis := [api] })]

/-- Processing of one declared verb of one path: counter updates, operation
record construction, and the `if/elif` category dispatch. -/
def aggStep (einfo : EntityInfo) (path : String) (pathLevelParams : List InParam)
    (ops : List (String × Operation)) (st : ParsedData) (mth : String) : ParsedData :=
  match alistGet ops mth with
  | none => st
  | some op =>
    let api : Api :=
      { path := path, method := pyUpper mth,
        pathParams := (extract_parameters (pathLevelParams ++ op.parameters)).path_params }
    let st := { st with summary :=
      { st.summary with
        total_endpoints := st.summary.total_endpoints + 1,
        methods_count := incrCount st.summary.methods_count (pyUpper mth) } }
    let ename := einfo.entity_name.getD ""
    if einfo.is_action then
      { st with actions := addListApi st.actions ename api,
                summary := { st.summary with total_actions := st.summary.total_actions + 1 } }
    else if einfo.is_function then
      { st with functions := addListApi st.functions ename api,
                summary := { st.summary with total_functions := st.summary.total_functions + 1 } }
    else if einfo.is_reference then
      { st with reference_entities := addEntityApi st.reference_entities ename api }
    else if einfo.is_nested then
      { st with nested_entities :=
          addNestedApi st.nested_entities (einfo.parent_entity.getD "") ename path api }
    else
      { st with entities := addEntityApi st.entities ename api }

/-- `parse_openapi_spec` restricted to the aggregation walk: every path,
the five verbs in declaration order. -/
def parse_openapi_spec (base_url : String) (paths : List (String × PathItem)) :
    ParsedData :=
  paths.foldl
    (fun st (p : String × PathItem) =>
      let einfo := identify_entity_type p.1
      fiveLower.foldl (aggStep einfo p.1 p.2.parameters p.2.ops) st)
    (emptyParsed base_url)

/-- Every operation record the aggregator filed, across all five category
maps. -/
def allApis (pd : ParsedData) : List Api :=
  pd.entities.flatMap (fun kv => kv.2.apis) ++
  pd.nested_entities.flatMap (fun kv => kv.2.apis) ++
  pd.reference_entities.flatMap (fun kv => kv.2.apis) ++
  pd.actions.flatMap (fun kv => kv.2) ++
  pd.functions.flatMap (fun kv => kv.2)

/-- A path item with every verb key outside the five recognized ones
removed. -/
def restrictOps (pi2 : PathItem) : PathItem :=
  { pi2 with ops := pi2.ops.filter (fun kv => fiveLower.contains kv.1) }

/-! ## 4.7 / 4.8 Catalog Projector — `generate_simplified_output`
(parse_openapi.py:408)

In the Python code every operation of one parent entity stores a reference
to the *same* `nested_entities` dict (`parent_to_nested[entity]`).  The
embedding makes this sharing explicit: entries carry the parent-entity key
(`nestedKey`), and the shared per-parent verb buckets live in a `Store`
threaded through the passes.  Serializing the catalog (what `json.dump`
writes) expands each entry's key to the final state of its shared buckets,
exactly as dumping the aliased Python structure does. -/

/-- A catalog entry (`process_api` / `nested_api_info` output), restricted
to the fields that feed names, sorting and ids.  `nestedKey` is `some k`
iff the Python dict has a `nested_entities` key (aliased per parent `k`). -/
structure Entry where
  id : Option Nat
  name : String
  method : String
  url : String
  path_params : Option (List PParam)
  nestedKey : Option String
deriving DecidableEq, Repr

/-- The five per-verb lists (`{'GET': [], 'POST': [], 'PATCH': [], 'PUT':
[], 'DELETE': []}`). -/
structure Buckets where
  bGET : List Entry
  bPOST : List Entry
  bPATCH : List Entry
  bPUT : List Entry
  bDELETE : List Entry
deriving DecidableEq, Repr

def emptyBuckets : Buckets :=
  { bGET := [], bPOST := [], bPATCH := [], bPUT := [], bDELETE := [] }

def VERBS : List String := ["GET", "POST", "PATCH", "PUT", "DELETE"]

def Buckets.get (b : Buckets) (m : String) : List Entry :=
  if m = "GET" then b.bGET
  else if m = "POST" then b.bPOST
  else if m = "PATCH" then b.bPATCH
  else if m = "PUT" then b.bPUT
  else if m = "DELETE" then b.bDELETE
  else []

def Buckets.set (b : Buckets) (m : String) (l : List Entry) : Buckets :=
  if m = "GET" then { b with bGET := l }
  else if m = "POST" then { b with bPOST := l }
  else if m = "PATCH" then { b with bPATCH := l }
  else if m = "PUT" then { b with bPUT := l }
  else if m = "DELETE" then { b with bDELETE := l }
  else b

/-- `if method in bucket-dict: bucket-dict[method].append(e)`. -/
def Buckets.push (b : Buckets) (m : String) (e : Entry) : Buckets :=
  if m = "GET" then { b with bGET := b.bGET ++ [e] }
  else if m = "POST" then { b with bPOST := b.bPOST ++ [e] }
  else if m = "PATCH" then { b with bPATCH := b.bPATCH ++ [e] }
  else if m = "PUT" then { b with bPUT := b.bPUT ++ [e] }
  else if m = "DELETE" then { b with bDELETE := b.bDELETE ++ [e] }
  else b

/-- The shared per-parent nested buckets (`parent_to_nested`). -/
abbrev Store := List (String × Buckets)

/-- `path_params_with_types`: `None` when the operation has no path
parameters, else the `{'key','type','enum'?}` projections. -/
def paramsWithTypes (l : List ParamInfo) : Option (List PParam) :=
  match l with
  | [] => none
  | _ :: _ =>
    some (l.map (fun p => { key := p.pname, ptype := p.ptype, penum := p.penum }))

/-- `process_api(api, ...)` restricted to the modelled fields.  The
`entity_name_override` parameter is never supplied in the source file and
is omitted. -/
def process_api (base_url : String) (api : Api) (nestedKey : Option String) : Entry :=
  let ppwt := paramsWithTypes api.pathParams
  let action_name := extract_action_name_from_path api.path
  let entity_name := extract_entity_name_from_path api.path
  let nested_resource := extract_nested_resource_from_path api.path
  { id := none
    name := generate_api_name api.method entity_name ppwt action_name nested_resource
    method := api.method
    url := base_url ++ api.path
    path_params := ppwt
    nestedKey := nestedKey }

/-- `nested_api_info` built in the `parent_to_nested` loop
(parse_openapi.py:766): same shape, but the name is generated from the
recorded `nested_entity` name instead of the path's first segment. -/
def nestedApiInfo (base_url : String) (nested_entity : String) (api : Api) : Entry :=
  let ppwt := paramsWithTypes api.pathParams
  let action_name := extract_action_name_from_path api.path
  let nested_resource := extract_nested_resource_from_path api.path
  { id := none
    name := generate_api_name api.method nested_entity ppwt action_name nested_resource
    method := api.method
    url := base_url ++ api.path
    path_params := ppwt
    nestedKey := none }

/-- Build `parent_to_nested` (parse_openapi.py:751). -/
def buildStore (base_url : String) (nested : List (String × NestedData)) : Store :=
  nested.foldl
    (fun store kv =>
      let nd := kv.2
      let store :=
        if alistHas store nd.parent_entity then store
        else store ++ [(nd.parent_entity, emptyBuckets)]
      nd.apis.foldl
        (fun store api =>
          alistUpd store nd.parent_entity
            (fun b => b.push api.method (nestedApiInfo base_url nd.nested_entity api)))
        store)
    []

def Buckets.anyNonempty (b : Buckets) : Bool :=
  !b.bGET.isEmpty || !b.bPOST.isEmpty || !b.bPATCH.isEmpty ||
  !b.bPUT.isEmpty || !b.bDELETE.isEmpty

/-- Main-entities loop (parse_openapi.py:805): every operation of an entity
gets (a reference to) the same nested buckets, and only when at least one
nested verb bucket is non-empty. -/
def addEntities (base_url : String) (store : Store)
    (entities : List (String × EntityData)) (top : Buckets) : Buckets :=
  entities.foldl
    (fun top kv =>
      let nestedKey :=
        match alistGet store kv.1 with
        | some b => if b.anyNonempty then some kv.1 else none
        | none => none
      kv.2.apis.foldl
        (fun top api => top.push api.method (process_api base_url api nestedKey))
        top)
    top

/-- Reference-entities loop (parse_openapi.py:825): no nested entities. -/
def addReferenceEntities (base_url : String)
    (refs : List (String × EntityData)) (top : Buckets) : Buckets :=
  refs.foldl
    (fun top kv =>
      kv.2.apis.foldl (fun top api => top.push api.method (process_api base_url api none)) top)
    top

/-- Actions-and-functions loop (parse_openapi.py:834). -/
def addActionLists (base_url : String)
    (src : List (String × List Api)) (top : Buckets) : Buckets :=
  src.foldl
    (fun top kv =>
      kv.2.foldl (fun top api => top.push api.method (process_api base_url api none)) top)
    top

/-! ### 4.7 Duplicate Resolver — `resolve_duplicate_names`
(parse_openapi.py:849) -/

def namesOf (l : List Entry) : List String := l.map Entry.name

/-- `name in duplicates`: the name occurs more than once in `names`. -/
def isDup (names : List String) (n : String) : Bool :=
  decide (names.count n > 1)

/-- Pass-1 prefix from the entry's URL: the text after the last `.svc/`
marker (the whole URL when absent), cut at the first `(` or `/`
(`re.split(r'[(/]', path_part)[0]`), with a trailing `Set` stripped, made
readable. -/
def entityPfx (url : String) : String :=
  let path_part := if pyContains url ".svc/" then afterLast url ".svc/" else url
  let epfx := String.mk (path_part.toList.takeWhile (fun c => c ≠ '(' ∧ c ≠ '/'))
  let epfx := if pyEndsWith epfx "Set" then pyDropRight epfx 3 else epfx
  camel_to_readable epfx

/-- Pass 1: every member of a colliding name gets `"{prefix} - {name}"`. -/
def dupPass1 (origNames : List String) (apis : List Entry) : List Entry :=
  apis.map (fun a =>
    if isDup origNames a.name then { a with name := entityPfx a.url ++ " - " ++ a.name }
    else a)

/-- Pass 2: names still colliding get `", {second path param key}"` appended
when a second path parameter with a non-empty key exists. -/
def dupPass2 (names1 : List String) (apis : List Entry) : List Entry :=
  apis.map (fun a =>
    if isDup names1 a.name then
      match a.path_params with
      | some (_ :: p2 :: _) =>
        if p2.key ≠ "" then { a with name := a.name ++ ", " ++ p2.key } else a
      | _ => a
    else a)

/-- `resolve_duplicate_names(apis)`. -/
def resolve_duplicate_names (apis : List Entry) : List Entry :=
  let names := namesOf apis
  if names.all (fun n => !isDup names n) then apis
  else
    let apis1 := dupPass1 names apis
    dupPass2 (namesOf apis1) apis1

/-! ### Sorting, nested resolution, and id assignment
(parse_openapi.py:899-933) -/

/-- The sort relation: Python `sorted(..., key=lambda x: x['name'].lower())`. -/
def entryLe (a b : Entry) : Prop :=
  lexLe (lowerKey a.name) (lowerKey b.name) = true

instance : DecidableRel entryLe :=
  fun a b => inferInstanceAs (Decidable (_ = true))

/-- Python's `sorted` is the unique stable sort; `insertionSort` with the
same comparison computes it. -/
def sortEntries (l : List Entry) : List Entry :=
  List.insertionSort entryLe l

/-- Resolve-then-sort of one non-empty nested bucket. -/
def nestedBucketPass (l : List Entry) : List Entry :=
  if l.isEmpty then l else sortEntries (resolve_duplicate_names l)

def sortBuckets (b : Buckets) : Buckets :=
  { bGET := nestedBucketPass b.bGET
    bPOST := nestedBucketPass b.bPOST
    bPATCH := nestedBucketPass b.bPATCH
    bPUT := nestedBucketPass b.bPUT
    bDELETE := nestedBucketPass b.bDELETE }

/-- Per top-level entry: resolve and sort the shared nested buckets it
points to (parse_openapi.py:907-918). -/
def sortStepStore (store : Store) (e : Entry) : Store :=
  match e.nestedKey with
  | none => store
  | some k =>
    match alistGet store k with
    | none => store
    | some b => alistUpd store k (fun _ => sortBuckets b)

/-- The per-verb loop of lines 903-918: sort the top bucket, then walk its
entries resolving/sorting their shared nested buckets. -/
def sortStage (top : Buckets) (store : Store) : Buckets × Store :=
  VERBS.foldl
    (fun acc v =>
      let sorted := acc.1.get v
      let sorted := sortEntries sorted
      let top := acc.1.set v sorted
      let store := sorted.foldl sortStepStore acc.2
      (top, store))
    (top, store)

/-- Stamp ids `ctr, ctr+1, ...` onto a list of entries. -/
def stampList : List Entry → Nat → List Entry × Nat
  | [], ctr => ([], ctr)
  | e :: rest, ctr =>
    let res := stampList rest (ctr + 1)
    ({ e with id := some ctr } :: res.1, res.2)

def stampIfNonempty (l : List Entry) (ctr : Nat) : List Entry × Nat :=
  if l.isEmpty then (l, ctr) else stampList l ctr

/-- Stamp the five nested buckets in verb order (lines 928-933's inner
loop, skipping empty buckets). -/
def stampBuckets (b : Buckets) (ctr : Nat) : Buckets × Nat :=
  let g := stampIfNonempty b.bGET ctr
  let po := stampIfNonempty b.bPOST g.2
  let pa := stampIfNonempty b.bPATCH po.2
  let pu := stampIfNonempty b.bPUT pa.2
  let d := stampIfNonempty b.bDELETE pu.2
  ({ bGET := g.1, bPOST := po.1, bPATCH := pa.1, bPUT := pu.1, bDELETE := d.1 }, d.2)

/-- Id assignment for one top-level entry: entry id, then — through the
shared reference — all of its parent's nested entries (overwriting any ids
a sibling operation's visit assigned to the same shared buckets). -/
def idStep (acc : List Entry × Nat × Store) (e : Entry) : List Entry × Nat × Store :=
  let e' := { e with id := some acc.2.1 }
  let ctr := acc.2.1 + 1
  match e.nestedKey with
  | none => (acc.1 ++ [e'], ctr, acc.2.2)
  | some k =>
    match alistGet acc.2.2 k with
    | none => (acc.1 ++ [e'], ctr, acc.2.2)
    | some b =>
      let sb := stampBuckets b ctr
      (acc.1 ++ [e'], sb.2, alistUpd acc.2.2 k (fun _ => sb.1))

/-- The id-assignment loop of lines 920-933: verbs in fixed order, global
counter starting at 1. -/
def idStage (top : Buckets) (store : Store) : Buckets × Nat × Store :=
  VERBS.foldl
    (fun acc v =>
      let res := (acc.1.get v).foldl idStep ([], acc.2.1, acc.2.2)
      (acc.1.set v res.1, res.2.1, res.2.2))
    (top, 1, store)

/-- The finished in-memory catalog: top-level verb buckets plus the shared
per-parent nested buckets. -/
structure Simplified where
  api_title : String
  top : Buckets
  store : Store

/-- `generate_simplified_output(parsed_data)` (the `api_info` block is
restricted to the title, which is all the Options Indexer reads). -/
def generate_simplified_output (title : String) (pd : ParsedData) : Simplified :=
  let base := pd.base_url
  let store := buildStore base pd.nested_entities
  let top := addEntities base store pd.entities emptyBuckets
  let top := addReferenceEntities base pd.reference_entities top
  let top := addActionLists base pd.actions top
  let top := addActionLists base pd.functions top
  let top :=
    { bGET := resolve_duplicate_names top.bGET
      bPOST := resolve_duplicate_names top.bPOST
      bPATCH := resolve_duplicate_names top.bPATCH
      bPUT := resolve_duplicate_names top.bPUT
      bDELETE := resolve_duplicate_names top.bDELETE }
  let ss := sortStage top store
  let is := idStage ss.1 ss.2
  { api_title := title, top := is.1, store := is.2.2 }

/-! ## Serialized catalog (the JSON document `json.dump` writes)

On serialization the shared nested buckets are expanded in place under
every entry that references them, all showing the buckets' final state.
Only the fields the Options Indexer reads or rewrites are kept. -/

/-- A serialized nested entry (`nested_entities` buckets contain no
`nested_entities` of their own — path depth gives exactly one level). -/
structure NItem where
  name : String
  id : Option Nat
  method : String
deriving DecidableEq, Repr

/-- A serialized top-level catalog entry. -/
structure PItem where
  name : String
  id : Option Nat
  method : String
  nested : Option (List (String × List NItem))
deriving DecidableEq, Repr

def serializeNested (e : Entry) : NItem :=
  { name := e.name, id := e.id, method := e.method }

def serializeEntry (store : Store) (e : Entry) : PItem :=
  { name := e.name, id := e.id, method := e.method
    nested := e.nestedKey.map (fun k =>
      let b := (alistGet store k).getD emptyBuckets
      VERBS.map (fun v => (v, (b.get v).map serializeNested))) }

/-- The document persisted to `parsed_data/…json`: the five verb buckets
(plus an `api_info` block carried separately). -/
def serializeCatalog (s : Simplified) : List (String × List PItem) :=
  VERBS.map (fun v => (v, (s.top.get v).map (serializeEntry s.store)))

/-- All ids appearing in the serialized catalog, in document order
(top-level entry, then each of its nested entries per verb). -/
def pitemIds (p : PItem) : List Nat :=
  (p.id.map (fun i => [i])).getD [] ++
    (match p.nested with
     | none => []
     | some bs => bs.flatMap (fun kv => kv.2.filterMap NItem.id))

def catalogIds (doc : List (String × List PItem)) : List Nat :=
  doc.flatMap (fun kv => kv.2.flatMap pitemIds)

/-- The number of catalog entries (top-level and nested, counted per
occurrence in the document). -/
def pitemCount (p : PItem) : Nat :=
  1 + (match p.nested with
       | none => 0
       | some bs => (bs.map (fun kv => kv.2.length)).sum)

def catalogCount (doc : List (String × List PItem)) : Nat :=
  (doc.map (fun kv => (kv.2.map pitemCount).sum)).sum

/-! ## 4.9 Options Indexer — `process_array` / `process_file`
(process_json.py:11-87)

`process_array` recurses into `nested_entities`; the serialized catalog
nests exactly one level (nested entries carry no `nested_entities` key),
so the recursive call is instantiated at that level (`processNested`). -/

/-- A `{method, name, id}` triple of the navigation index. -/
structure NestedIdx where
  method : String
  name : String
  id : Nat
deriving DecidableEq, Repr

/-- An `entity_data` record of the navigation index. -/
structure IdxEntry where
  name : String
  id : Nat
  nested : Option (List NestedIdx)
deriving DecidableEq, Repr

/-- `process_array` on a nested bucket: stamp `id`/`method` onto each item,
collect `{name, id}`. -/
def processNested : List NItem → String → Nat → List NItem × List (String × Nat) × Nat
  | [], _, ctr => ([], [], ctr)
  | it :: rest, m, ctr =>
    let it' : NItem := { it with id := some ctr, method := m }
    let res := processNested rest m (ctr + 1)
    (it' :: res.1, (it.name, ctr) :: res.2.1, res.2.2)

/-- One verb of the nested loop of `process_array` (process_json.py:34-47):
skip an absent or empty bucket, else stamp it and flatten the collected
`{method, name, id}` triples. -/
def pnbStep (acc : List (String × List NItem) × List NestedIdx × Nat) (v : String) :
    List (String × List NItem) × List NestedIdx × Nat :=
  match alistGet acc.1 v with
  | some l =>
    if l.isEmpty then acc
    else
      let res := processNested l v acc.2.2
      (alistUpd acc.1 v (fun _ => res.1),
       acc.2.1 ++ res.2.1.map (fun ni => ⟨v, ni.1, ni.2⟩),
       res.2.2)
  | none => acc

/-- The nested loop of `process_array`: the five verbs in order. -/
def processNestedBuckets (bs : List (String × List NItem)) (ctr : Nat) :
    List (String × List NItem) × List NestedIdx × Nat :=
  VERBS.foldl pnbStep (bs, [], ctr)

/-- `process_array(arr, http_method, id_counter)`: stamps `id` and `method`
onto every item (and, recursively, its nested entries) and returns the
collected `entity_info`. -/
def process_array : List PItem → String → Nat → List PItem × List IdxEntry × Nat
  | [], _, ctr => ([], [], ctr)
  | it :: rest, m, ctr =>
    let myId := ctr
    match it.nested with
    | none =>
      let it' : PItem := { it with id := some myId, method := m }
      let res := process_array rest m (myId + 1)
      (it' :: res.1, { name := it.name, id := myId, nested := none } :: res.2.1, res.2.2)
    | some bs =>
      let nb := processNestedBuckets bs (myId + 1)
      let it' : PItem := { it with id := some myId, method := m, nested := some nb.1 }
      let entity : IdxEntry :=
        { name := it.name, id := myId
          nested := if nb.2.1.isEmpty then none else some nb.2.1 }
      let res := process_array rest m nb.2.2
      (it' :: res.1, entity :: res.2.1, res.2.2)

/-- One verb of the root loop of `process_file` (process_json.py:71-77):
skip an absent or empty bucket, else stamp it and append its options
group. -/
def pfStep (acc : List (String × List PItem) × List (String × List IdxEntry) × Nat)
    (v : String) :
    List (String × List PItem) × List (String × List IdxEntry) × Nat :=
  match alistGet acc.1 v with
  | some l =>
    if l.isEmpty then acc
    else
      let res := process_array l v acc.2.2
      (alistUpd acc.1 v (fun _ => res.1), acc.2.1 ++ [(v, res.2.1)], res.2.2)
  | none => acc

/-- The root loop of `process_file`: the five verbs in order, `id_counter`
starting at 1.  Returns the stamped document and the options `entities`
groups. -/
def process_file (doc : List (String × List PItem)) :
    List (String × List PItem) × List (String × List IdxEntry) × Nat :=
  VERBS.foldl pfStep (doc, [], 1)

/-! ## Navigation-index projections and traversal ids -/

/-- All ids the navigation index carries, in emission order. -/
def indexIds (groups : List (String × List IdxEntry)) : List Nat :=
  groups.flatMap (fun g => g.2.flatMap (fun e => e.id :: (e.nested.getD []).map NestedIdx.id))

/-- Read-only projection of a (stamped) nested entry to its index triple. -/
def projNested (n : NItem) : NestedIdx :=
  { method := n.method, name := n.name, id := n.id.getD 0 }

/-- Read-only projection of a (stamped) catalog entry to its index record:
the nested children's triples in the catalog's verb order, the
`nested_entities` attribute kept only when non-empty. -/
def projItem (p : PItem) : IdxEntry :=
  { name := p.name, id := p.id.getD 0
    nested :=
      match p.nested with
      | none => none
      | some bs =>
        let l := VERBS.flatMap (fun v => ((alistGet bs v).getD []).map projNested)
        if l.isEmpty then none else some l }

/-- Read-only projection of a whole (stamped) catalog document to the
navigation index: one group per verb with a non-empty bucket. -/
def projDoc (doc : List (String × List PItem)) : List (String × List IdxEntry) :=
  VERBS.filterMap (fun v =>
    match alistGet doc v with
    | some l => if l.isEmpty then none else some (v, l.map projItem)
    | none => none)

/-- The ids a catalog document carries, in the traversal order of the
Options Indexer (verbs in fixed order; each top-level entry, then its
nested entries per verb). -/
def nestedTravIds (bs : List (String × List NItem)) : List (Option Nat) :=
  VERBS.flatMap (fun v => ((alistGet bs v).getD []).map NItem.id)

def pitemTravIds (p : PItem) : List (Option Nat) :=
  p.id :: (match p.nested with
           | none => []
           | some bs => nestedTravIds bs)

def docTravIds (doc : List (String × List PItem)) : List (Option Nat) :=
  VERBS.flatMap (fun v => ((alistGet doc v).getD []).flatMap pitemTravIds)

/-- Every entry's `method` attribute agrees with the verb bucket holding it. -/
def nestedMethodsOk (bs : List (String × List NItem)) : Bool :=
  VERBS.all (fun v => ((alistGet bs v).getD []).all (fun n => n.method == v))

def docMethodsOk (doc : List (String × List PItem)) : Bool :=
  VERBS.all (fun v => ((alistGet doc v).getD []).all (fun p =>
    p.method == v &&
      (match p.nested with
       | none => true
       | some bs => nestedMethodsOk bs)))

/-! ## Sortedness checker (claim C7) -/

/-- Adjacent-pairs check: the keys are non-decreasing. -/
def sortedKeys : List (List Nat) → Bool
  | [] => true
  | [_] => true
  | a :: b :: r => lexLe a b && sortedKeys (b :: r)

def bucketSortedP (l : List PItem) : Bool :=
  sortedKeys (l.map (fun p => lowerKey p.name))

def bucketSortedN (l : List NItem) : Bool :=
  sortedKeys (l.map (fun n => lowerKey n.name))

/-- Every verb bucket of the serialized catalog — top-level and inside
every `nested_entities` attachment — is non-decreasing by case-insensitive
name. -/
def catalogSorted (doc : List (String × List PItem)) : Bool :=
  doc.all (fun kv =>
    bucketSortedP kv.2 &&
      kv.2.all (fun p =>
        match p.nested with
        | none => true
        | some bs => bs.all (fun b => bucketSortedN b.2)))

/-! ## Spec-side definitions (formalizing the claims' wording) -/

/-- Claim C5's parent rule: the first segment carrying a parameter list
that is not the last segment, its parameter list stripped. -/
def firstParamSegment (path : String) : Option String :=
  (((pySplit path "/").drop 1).dropLast).find? (fun s => hasChar s '(')

def specNestedParentClaim (path : String) : Option String :=
  (firstParamSegment path).map (fun s => beforeChar s '(')

/-- The first path segment of a path beginning with `/`: the text between
the leading slash and the next slash. -/
def firstSegmentOf (path : String) : String :=
  String.mk ((path.toList.drop 1).takeWhile (· ≠ '/'))

/-- The final path segment (`parts[-1]`). -/
def lastSegmentOf (path : String) : String :=
  (pySplit path "/").getLastD ""

/-- Claim C3's pass-1 prefix: the URL's first path segment name (its
parameter list removed), trailing `Set` stripped, made readable. -/
def specClaimPrefix (url : String) : String :=
  let seg := beforeChar (firstSegmentOf url) '('
  let seg := if pyEndsWith seg "Set" then pyDropRight seg 3 else seg
  camel_to_readable seg

/-- The two-pass duplicate resolution as amended: pass 1 over the original
collision multiset, recount, pass 2 over the recomputed one — with no
early return. -/
def specDupResolve (apis : List Entry) : List Entry :=
  let p1 := dupPass1 (namesOf apis) apis
  dupPass2 (namesOf p1) p1

/-- Claim C8's verb rules, as the spec states them, over the readable
entity label (nested resource folded in first). -/
def specApiName (method entity : String) (params : Option (List PParam))
    (nested : Option String) : String :=
  let label :=
    match nested with
    | some nr => camel_to_readable entity ++ " " ++ camel_to_readable nr
    | none => camel_to_readable entity
  let parameterized := decide ((params.getD []).length > 0)
  let key := ((params.getD []).head?.map PParam.key).getD ""
  if method = "GET" then
    if parameterized then "Get " ++ label ++ " by " ++ key else "List " ++ label
  else if method = "POST" then "Create " ++ label
  else if method = "PATCH" then
    if parameterized then "Update " ++ label ++ " by " ++ key else "Update " ++ label
  else if method = "PUT" then
    if parameterized then "Replace " ++ label ++ " by " ++ key else "Replace " ++ label
  else if method = "DELETE" then
    if parameterized then "Delete " ++ label ++ " by " ++ key else "Delete " ++ label
  else label

/-! ## Concrete pipeline runs (examples used by the claims) -/

def pathParamANo : InParam :=
  { pname := "ANo", loc := some "path", schemaType := some "string",
    schemaEnum := none, itemsEnum := none }

/-- A three-operation specification: a primary entity `ASet` with a
collection GET, an item GET, and one nested child collection.  The entity
has two operations, so both top-level entries share the same
`nested_entities` buckets. -/
def exPaths : List (String × PathItem) :=
  [("/ASet", { ops := [("get", { parameters := [] })], parameters := [] }),
   ("/ASet(ANo='{ANo}')",
    { ops := [("get", { parameters := [pathParamANo] })], parameters := [] }),
   ("/ASet(ANo='{ANo}')/Kids",
    { ops := [("get", { parameters := [pathParamANo] })], parameters := [] })]

def exParsed : ParsedData := parse_openapi_spec "" exPaths

def exCatalog : Simplified := generate_simplified_output "Ex" exParsed

def exDoc : List (String × List PItem) := serializeCatalog exCatalog

/-- The same specification with the collection GET removed: the parent has
exactly one operation, so no shared buckets are stamped twice. -/
def exGoodPaths : List (String × PathItem) :=
  [("/ASet", { ops := [("get", { parameters := [] })], parameters := [] }),
   ("/ASet(ANo='{ANo}')/Kids",
    { ops := [("get", { parameters := [pathParamANo] })], parameters := [] })]

def exGoodDoc : List (String × List PItem) :=
  serializeCatalog (generate_simplified_output "Ex" (parse_openapi_spec "" exGoodPaths))

/-- Two same-named operations on different entities, reached through URLs
with no `.svc/` marker (empty `base_url`): the claim's pass-1 prefix and
the code's disagree. -/
def exDupA : Entry :=
  { id := none, name := "N", method := "GET", url := "/ASet(ANo='x')",
    path_params := none, nestedKey := none }

def exDupB : Entry :=
  { id := none, name := "N", method := "GET", url := "/BSet(BNo='x')",
    path_params := none, nestedKey := none }

/-! ## Invariant definitions used by the theorems -/

/-- The invariant of claim C10 part (a): every filed operation's method is
one of the five upper-case verbs. -/
def GoodMethods (st : ParsedData) : Prop :=
  ((allApis st).all (fun a => VERBS.contains a.method)) = true

/-- The per-entry lower-cased sort keys. -/
def nameKeysE (l : List Entry) : List (List Nat) :=
  l.map (fun e => lowerKey e.name)

/-- Store lookup with the empty buckets as default (what serialization of a
dangling key would expose). -/
def storeGetD (store : Store) (k : String) : Buckets :=
  (alistGet store k).getD emptyBuckets

/-- All five verb buckets are non-decreasing by case-insensitive name. -/
def GoodB (b : Buckets) : Prop :=
  sortedKeys (nameKeysE b.bGET) = true ∧
  sortedKeys (nameKeysE b.bPOST) = true ∧
  sortedKeys (nameKeysE b.bPATCH) = true ∧
  sortedKeys (nameKeysE b.bPUT) = true ∧
  sortedKeys (nameKeysE b.bDELETE) = true

/-- Every nested-buckets key referenced by an entry of `E` points to sorted
buckets in the store. -/
def StoreInv (store : Store) (E : List Entry) : Prop :=
  ∀ e ∈ E, ∀ k, e.nestedKey = some k → GoodB (storeGetD store k)

/-- The ids are exactly `some c, some (c+1), ...` in order. -/
def denseFrom : Nat → List (Option Nat) → Bool
  | _, [] => true
  | c, x :: rest => (x == some c) && denseFrom (c + 1) rest

/-! # Theorems -/

/-! ## Helper lemmas on the string primitives -/

theorem splitCharsGo_ne_nil (sep : List Char) (k : Nat) (l : List Char) :
    splitCharsGo sep k l ≠ [] := by
  induction l generalizing k with
  | nil => cases k <;> simp [splitCharsGo]
  | cons c rest ih =>
    cases k with
    | zero =>
      rw [splitCharsGo]
      split
      · simp
      · rcases h : splitCharsGo sep 0 rest with _ | ⟨r, rs⟩
        · simp
        · simp
    | succ n => simpa [splitCharsGo] using ih n

theorem headD_splitCharsGo_single (c : Char) (l : List Char) :
    (splitCharsGo [c] 0 l).headD [] = l.takeWhile (· ≠ c) := by
  induction l with
  | nil => simp [splitCharsGo]
  | cons d rest ih =>
    rw [splitCharsGo]
    by_cases hdc : c = d
    · subst hdc
      simp [List.isPrefixOf, List.takeWhile]
    · have hpre : ¬(([c] : List Char) ≠ [] ∧ [c].isPrefixOf (d :: rest) = true) := by
        simp [List.isPrefixOf]
        intro hcd
        exact absurd hcd hdc
      rw [if_neg hpre]
      rcases h : splitCharsGo [c] 0 rest with _ | ⟨r, rs⟩
      · exact absurd h (splitCharsGo_ne_nil [c] 0 rest)
      · rw [h] at ih
        simp only [List.headD_cons] at ih
        simp [List.takeWhile, ih, Ne.symm hdc]

theorem pySplit_cons_slash (t : List Char) :
    pySplit (String.mk ('/' :: t)) "/" =
      "" :: (splitCharsGo ['/'] 0 t).map String.mk := by
  show (splitChars "/".toList (String.mk ('/' :: t)).toList).map String.mk = _
  have h1 : "/".toList = ['/'] := rfl
  have h2 : (String.mk ('/' :: t)).toList = '/' :: t := rfl
  rw [h1, h2]
  show (splitCharsGo ['/'] 0 ('/' :: t)).map String.mk = _
  rw [splitCharsGo]
  simp [List.isPrefixOf]

/-- For a path that begins with a slash, `parts[1]` is the first path
segment (the text between the leading slash and the next one). -/
theorem pySplit_getD_one (path : String) (h : pyStartsWith path "/" = true) :
    (pySplit path "/").getD 1 "" = firstSegmentOf path := by
  obtain ⟨t, ht⟩ : ∃ t, path.toList = '/' :: t := by
    have h' : ("/".toList.isPrefixOf path.toList) = true := h
    have h1 : "/".toList = ['/'] := rfl
    rw [h1] at h'
    rcases hl : path.toList with _ | ⟨c, t⟩
    · rw [hl] at h'
      simp [List.isPrefixOf] at h'
    · rw [hl] at h'
      simp [List.isPrefixOf] at h'
      exact ⟨t, by rw [h'.symm]⟩
  have hpath : path = String.mk ('/' :: t) := by
    cases path
    simpa using congrArg String.mk ht
  rw [hpath, pySplit_cons_slash]
  rcases hs : splitCharsGo ['/'] 0 t with _ | ⟨r, rs⟩
  · exact absurd hs (splitCharsGo_ne_nil ['/'] 0 t)
  · have hr : r = t.takeWhile (· ≠ '/') := by
      have h2 := headD_splitCharsGo_single '/' t
      rw [hs] at h2
      simpa using h2
    simp only [List.map_cons, List.getD_cons_succ, List.getD_cons_zero]
    rw [hr]
    rfl

/-! ## C4 — classification exclusivity and precedence -/

/-- Claim C4: every path gets exactly one of the five categories, decided
by the precedence action > function > reference > nested > primary with
primary as the always-applicable fallback.  The five Boolean equations
characterize each category by the classifier's flags in precedence order,
and the filter equation states that exactly one category is assigned. -/
theorem c4_classification_exclusive (path : String) :
    (decide (classifyPath path = Category.action)
        = (identify_entity_type path).is_action ∧
     decide (classifyPath path = Category.function)
        = (!(identify_entity_type path).is_action &&
           (identify_entity_type path).is_function) ∧
     decide (classifyPath path = Category.reference)
        = (!(identify_entity_type path).is_action &&
           !(identify_entity_type path).is_function &&
           (identify_entity_type path).is_reference) ∧
     decide (classifyPath path = Category.nested)
        = (!(identify_entity_type path).is_action &&
           !(identify_entity_type path).is_function &&
           !(identify_entity_type path).is_reference &&
           (identify_entity_type path).is_nested) ∧
     decide (classifyPath path = Category.primary)
        = (!(identify_entity_type path).is_action &&
           !(identify_entity_type path).is_function &&
           !(identify_entity_type path).is_reference &&
           !(identify_entity_type path).is_nested)) ∧
    [Category.action, Category.function, Category.reference, Category.nested,
      Category.primary].filter (fun c => decide (classifyPath path = c))
      = [classifyPath path] := by
  cases ha : (identify_entity_type path).is_action <;>
    cases hf : (identify_entity_type path).is_function <;>
      cases hr : (identify_entity_type path).is_reference <;>
        cases hn : (identify_entity_type path).is_nested <;>
          simp [classifyPath, ha, hf, hr, hn]

/-! ## C5 — nested-entity parent and child extraction -/

/-- Claim C5 counterexample: on `/A/B(1)/C` the first parameterized
non-final segment is `B(1)`, so the claim demands parent `B`; the code
takes `parts[1]` and yields parent `A`. -/
theorem c5_counterexample :
    (identify_entity_type "/A/B(1)/C").is_nested = true ∧
    specNestedParentClaim "/A/B(1)/C" = some "B" ∧
    (identify_entity_type "/A/B(1)/C").parent_entity = some "A" ∧
    some "A" ≠ some "B" := by
  refine ⟨by rfl, by rfl, by rfl, ?_⟩
  intro h
  exact absurd (Option.some.inj h) (by decide)

/-- Claim C5 as amended: when a path beginning with a slash is classified
as nested, the parent entity name is the *first path segment* (not the
first parameterized one) stripped of its parameter list; the child entity
name is the final segment stripped of its parameter list, except that when
that is the empty string the child is refilled from the first path segment
(`if not result['entity_name']`, parse_openapi.py:226). -/
theorem c5_amended (path : String) (hslash : pyStartsWith path "/" = true)
    (hnested : (identify_entity_type path).is_nested = true) :
    (identify_entity_type path).parent_entity
        = some (beforeChar (firstSegmentOf path) '(') ∧
    (identify_entity_type path).entity_name
        = some (if beforeChar (lastSegmentOf path) '(' = "" then
                  beforeChar (firstSegmentOf path) '('
                else beforeChar (lastSegmentOf path) '(') := by
  have hseg := pySplit_getD_one path hslash
  simp only [identify_entity_type] at hnested ⊢
  rw [hnested]
  have hseg2 : (pySplit path "/")[1]?.getD "" = firstSegmentOf path := by
    simpa [List.getD] using hseg
  have hlen : 1 < (pySplit path "/").length := by
    have h1 := hnested
    simp only [Bool.and_eq_true, decide_eq_true_eq] at h1
    omega
  refine ⟨by simp [hseg2], ?_⟩
  show (if beforeChar ((pySplit path "/").getLastD "") '(' = ""
        then some (beforeChar (if (pySplit path "/").length > 1
                               then (pySplit path "/").getD 1 "" else "") '(')
        else some (beforeChar ((pySplit path "/").getLastD "") '(')) = _
  have hmain2 : beforeChar (if (pySplit path "/").length > 1
      then (pySplit path "/").getD 1 "" else "") '('
      = beforeChar (firstSegmentOf path) '(' := by
    rw [if_pos hlen, hseg]
  have hlast2 : (pySplit path "/").getLastD "" = lastSegmentOf path := rfl
  rw [hmain2, hlast2]
  by_cases hc : beforeChar (lastSegmentOf path) '(' = ""
  · rw [if_pos hc, if_pos hc]
  · rw [if_neg hc, if_neg hc]

/-- Witness for `c5_amended` at `/A(1)/B`. -/
theorem c5_amended_witness :
    (identify_entity_type "/A(1)/B").parent_entity
        = some (beforeChar (firstSegmentOf "/A(1)/B") '(') ∧
    (identify_entity_type "/A(1)/B").entity_name
        = some (if beforeChar (lastSegmentOf "/A(1)/B") '(' = "" then
                  beforeChar (firstSegmentOf "/A(1)/B") '('
                else beforeChar (lastSegmentOf "/A(1)/B") '(') :=
  c5_amended "/A(1)/B" (by rfl) (by rfl)

/-! ## C6 — reference resolution totality -/

theorem refWalk_chain (ps : List String) (j : Json) :
    refWalk j ps =
      (match chainLookup j ps with
       | some (Json.obj fs) => Json.obj fs
       | _ => Json.obj []) := by
  induction ps generalizing j with
  | nil => cases j <;> rfl
  | cons p ps ih =>
    cases j with
    | obj fs =>
      show (match lookupRaw fs p with
            | some v => refWalk v ps
            | none => Json.obj []) = _
      cases h : lookupRaw fs p with
      | none => simp [chainLookup, h]
      | some v => simp [chainLookup, h, ih v]
    | null => rfl
    | bool b => rfl
    | num n => rfl
    | str s => rfl
    | arr l => rfl

/-- Claim C6: reference resolution is total — it is a function that always
yields a dict; a pointer not starting with the `#/` marker yields the
empty fragment, and otherwise the result is the empty fragment whenever
the segment chain misses a key or lands on a non-dict value, and the
addressed node itself when the chain succeeds on a dict. -/
theorem c6_resolve_ref_total (spec : Json) (ref : String) :
    (resolve_ref spec ref).isObj = true ∧
    (if pyStartsWith ref "#/" = true then
       resolve_ref spec ref =
         (match chainLookup (refStart spec) (pySplit (pyDrop ref 2) "/") with
          | some (Json.obj fs) => Json.obj fs
          | _ => Json.obj [])
     else resolve_ref spec ref = Json.obj []) := by
  by_cases h : ref = "" ∨ pyStartsWith ref "#/" = false
  · have hr : resolve_ref spec ref = Json.obj [] := by
      unfold resolve_ref
      rw [if_pos h]
    have hstart : pyStartsWith ref "#/" = false := by
      rcases h with h | h
      · subst h
        rfl
      · exact h
    rw [hr, hstart]
    exact ⟨rfl, by simp⟩
  · push_neg at h
    have hstart : pyStartsWith ref "#/" = true := by
      rcases hb : pyStartsWith ref "#/" with _ | _
      · exact absurd hb h.2
      · rfl
    have hr : resolve_ref spec ref
        = refWalk (refStart spec) (pySplit (pyDrop ref 2) "/") := by
      unfold resolve_ref
      rw [if_neg]
      simp [h.1, hstart]
    rw [hr, hstart, refWalk_chain]
    refine ⟨?_, by simp⟩
    cases hc : chainLookup (refStart spec) (pySplit (pyDrop ref 2) "/") with
    | none => rfl
    | some v => cases v <;> rfl

/-! ## C8 — verb-based name synthesis -/

/-- Claim C8: with no action/function name, the synthesized name follows
the claimed verb rules exactly, the nested resource folded into the
readable entity label first, identifiers made readable by inserting a
space before each internal capital letter. -/
theorem c8_name_rules (entity : String) (pp : Option (List PParam)) (nr : Option String) :
    generate_api_name "GET" entity pp none nr = specApiName "GET" entity pp nr ∧
    generate_api_name "POST" entity pp none nr = specApiName "POST" entity pp nr ∧
    generate_api_name "PATCH" entity pp none nr = specApiName "PATCH" entity pp nr ∧
    generate_api_name "PUT" entity pp none nr = specApiName "PUT" entity pp nr ∧
    generate_api_name "DELETE" entity pp none nr = specApiName "DELETE" entity pp nr := by
  rcases pp with _ | l
  · rcases nr with _ | n <;>
      simp [generate_api_name, specApiName, get_primary_key]
  · rcases l with _ | ⟨p, rest⟩ <;> rcases nr with _ | n <;>
      simp [generate_api_name, specApiName, get_primary_key]

/-! ## C9 — schema property descriptors -/

/-- Claim C9 counterexample: for a property with an empty definition the
descriptor still carries a `description` attribute (defaulted to the empty
string), although `description` is absent in the source — so the
extractor does not omit every absent attribute. -/
theorem c9_counterexample :
    (extract_schema_properties (Json.obj []) exSchema9).properties
      = [("p", [("type", Json.str "unknown"), ("description", Json.str "")])] ∧
    hasKeyList (propDescriptor (Json.obj [])) "description" = true ∧
    hasKeyJ (Json.obj []) "description" = false := by
  exact ⟨rfl, rfl, rfl⟩

theorem lookupRaw_none_of_count_zero (l : List (String × Json)) (k : String)
    (h : (l.map Prod.fst).count k = 0) : lookupRaw l k = none := by
  induction l with
  | nil => rfl
  | cons a rest ih =>
    simp only [List.map_cons, List.count_cons] at h
    have hk : a.1 ≠ k := by
      intro he
      simp [he] at h
    rcases a with ⟨ka, va⟩
    simp only [lookupRaw, if_neg hk]
    exact ih (by omega)

/-- Looking a key up after the `None`-filter: the stored value survives iff
it is not null (assuming the key occurs at most once). -/
theorem lookupRaw_filter_notNull (l : List (String × Json)) (k : String)
    (huniq : (l.map Prod.fst).count k ≤ 1) :
    lookupRaw (l.filter (fun kv => !kv.2.isNull)) k =
      (match lookupRaw l k with
       | some v => if v.isNull = true then none else some v
       | none => none) := by
  induction l with
  | nil => rfl
  | cons a rest ih =>
    rcases a with ⟨ka, va⟩
    simp only [List.map_cons, List.count_cons] at huniq
    by_cases hka : ka = k
    · subst hka
      have hzero : ((rest.map Prod.fst).count ka) = 0 := by
        simp at huniq
        omega
      have hfzero : ((rest.filter (fun kv => !kv.2.isNull)).map Prod.fst).count ka = 0 := by
        have hsub : List.Sublist
            ((rest.filter (fun kv => !kv.2.isNull)).map Prod.fst)
            (rest.map Prod.fst) :=
          (List.filter_sublist rest).map Prod.fst
        have hle := hsub.count_le ka
        omega
      cases hv : va.isNull
      · simp only [List.filter_cons]
        simp [lookupRaw, hv]
      · simp only [List.filter_cons]
        simp [lookupRaw, hv, lookupRaw_none_of_count_zero _ _ hfzero]
    · have hrest : (rest.map Prod.fst).count k ≤ 1 := by
        simpa [hka] using huniq
      cases hv : va.isNull
      · simp only [List.filter_cons]
        simp [lookupRaw, hv, hka, ih hrest]
      · simp only [List.filter_cons]
        simp [lookupRaw, hv, hka, ih hrest]

/-- The raw `prop_info` list holds each key once, and the values at the
individual keys are as built. -/
theorem propInfoRaw_keys (pdef : Json) :
    (propInfoRaw pdef).map Prod.fst =
      (if hasKeyJ pdef "$ref" = true then
        ["type", "description", "maxLength", "format", "example", "$ref"]
       else ["type", "description", "maxLength", "format", "example"]) := by
  by_cases h : hasKeyJ pdef "$ref" = true <;>
    simp [propInfoRaw, h, dictSet]

/-- Claim C9 as amended: descriptors carry no null-valued attribute;
`maxLength`, `format` and `example` are present exactly when present and
non-null in the source (with the source's value); `type` defaults to
`"unknown"` when absent and is forced to `"enum/reference"` for `$ref`
properties; a `$ref` property's pointer is recorded in the descriptor's
`$ref` attribute exactly when its value is non-null (a null-valued
pointer is filtered out like any other null, and a property without a
`$ref` key never acquires one); and `description` — the amendment —
defaults to the empty string instead of being omitted when absent. -/
theorem c9_amended (spec schema : Json) (pname : String) (pdef : Json)
    (hmem : (pname, pdef) ∈ schemaPropsList (schemaAfterRef spec schema)) :
    (pname, propDescriptor pdef) ∈ (extract_schema_properties spec schema).properties ∧
    (∀ kv ∈ propDescriptor pdef, kv.2.isNull = false) ∧
    (hasKeyJ pdef "$ref" = true →
       lookupRaw (propDescriptor pdef) "type" = some (Json.str "enum/reference")) ∧
    (hasKeyJ pdef "$ref" = false → hasKeyJ pdef "type" = false →
       lookupRaw (propDescriptor pdef) "type" = some (Json.str "unknown")) ∧
    (lookupRaw (propDescriptor pdef) "$ref" =
       (if hasKeyJ pdef "$ref" = true then
         (if (pyGet pdef "$ref").isNull = true then none else some (pyGet pdef "$ref"))
        else none)) ∧
    (hasKeyJ pdef "description" = false →
       lookupRaw (propDescriptor pdef) "description" = some (Json.str "")) ∧
    (∀ k, k ∈ (["maxLength", "format", "example"] : List String) →
       lookupRaw (propDescriptor pdef) k =
         (if (pyGet pdef k).isNull = true then none else some (pyGet pdef k))) := by
  have huniq : ∀ k : String, ((propInfoRaw pdef).map Prod.fst).count k ≤ 1 := by
    intro k
    rw [propInfoRaw_keys]
    split
    · exact List.nodup_iff_count_le_one.mp (by decide) k
    · exact List.nodup_iff_count_le_one.mp (by decide) k
  have hfilter : ∀ k : String,
      lookupRaw (propDescriptor pdef) k =
        (match lookupRaw (propInfoRaw pdef) k with
         | some v => if v.isNull = true then none else some v
         | none => none) := by
    intro k
    exact lookupRaw_filter_notNull _ _ (huniq k)
  refine ⟨?_, ?_, ?_, ?_, ?_, ?_, ?_⟩
  · show (pname, propDescriptor pdef)
      ∈ (schemaPropsList (schemaAfterRef spec schema)).map
          (fun kv => (kv.1, propDescriptor kv.2))
    exact List.mem_map.mpr ⟨(pname, pdef), hmem, rfl⟩
  · intro kv hkv
    have := List.of_mem_filter hkv
    simpa using this
  · intro href
    rw [hfilter]
    have hlook : lookupRaw (propInfoRaw pdef) "type" = some (Json.str "enum/reference") := by
      simp [propInfoRaw, href, dictSet, lookupRaw]
    rw [hlook]
    rfl
  · intro href htype
    rw [hfilter]
    have hget : pyGetD pdef "type" (Json.str "unknown") = Json.str "unknown" := by
      cases pdef with
      | obj fs =>
        simp only [hasKeyJ, hasKeyList, Option.isSome] at htype
        cases h : lookupRaw fs "type" with
        | none => simp [pyGetD, h]
        | some v => simp [h] at htype
      | null => rfl
      | bool b => rfl
      | num n => rfl
      | str s => rfl
      | arr l => rfl
    have hlook : lookupRaw (propInfoRaw pdef) "type" = some (Json.str "unknown") := by
      simp [propInfoRaw, href, lookupRaw, hget]
    rw [hlook]
    rfl
  · rw [hfilter]
    by_cases href : hasKeyJ pdef "$ref" = true
    · have hlook : lookupRaw (propInfoRaw pdef) "$ref" = some (pyGet pdef "$ref") := by
        simp [propInfoRaw, href, dictSet, lookupRaw]
      rw [hlook, if_pos href]
    · have hlook : lookupRaw (propInfoRaw pdef) "$ref" = none := by
        simp [propInfoRaw, href, lookupRaw]
      rw [hlook, if_neg href]
  · intro hdesc
    rw [hfilter]
    have hget : pyGetD pdef "description" (Json.str "") = Json.str "" := by
      cases pdef with
      | obj fs =>
        simp only [hasKeyJ, hasKeyList, Option.isSome] at hdesc
        cases h : lookupRaw fs "description" with
        | none => simp [pyGetD, h]
        | some v => simp [h] at hdesc
      | null => rfl
      | bool b => rfl
      | num n => rfl
      | str s => rfl
      | arr l => rfl
    have hlook : lookupRaw (propInfoRaw pdef) "description" = some (Json.str "") := by
      by_cases href : hasKeyJ pdef "$ref" = true <;>
        simp [propInfoRaw, href, dictSet, lookupRaw, hget]
    rw [hlook]
    rfl
  · intro k hk
    rw [hfilter]
    have hlook : lookupRaw (propInfoRaw pdef) k = some (pyGet pdef k) := by
      simp only [List.mem_cons, List.not_mem_nil, or_false] at hk
      rcases hk with h | h | h <;> subst h <;>
        (by_cases href : hasKeyJ pdef "$ref" = true <;>
          simp [propInfoRaw, href, dictSet, lookupRaw, pyGet])
    rw [hlook]

/-- Witness for `c9_amended` at the property `p` of `exSchema9`. -/
theorem c9_amended_witness :
    ("p", propDescriptor (Json.obj []))
        ∈ (extract_schema_properties (Json.obj []) exSchema9).properties ∧
    (∀ kv ∈ propDescriptor (Json.obj []), kv.2.isNull = false) ∧
    (hasKeyJ (Json.obj []) "$ref" = true →
       lookupRaw (propDescriptor (Json.obj [])) "type" = some (Json.str "enum/reference")) ∧
    (hasKeyJ (Json.obj []) "$ref" = false → hasKeyJ (Json.obj []) "type" = false →
       lookupRaw (propDescriptor (Json.obj [])) "type" = some (Json.str "unknown")) ∧
    (lookupRaw (propDescriptor (Json.obj [])) "$ref" =
       (if hasKeyJ (Json.obj []) "$ref" = true then
         (if (pyGet (Json.obj []) "$ref").isNull = true then none
          else some (pyGet (Json.obj []) "$ref"))
        else none)) ∧
    (hasKeyJ (Json.obj []) "description" = false →
       lookupRaw (propDescriptor (Json.obj [])) "description" = some (Json.str "")) ∧
    (∀ k, k ∈ (["maxLength", "format", "example"] : List String) →
       lookupRaw (propDescriptor (Json.obj [])) k =
         (if (pyGet (Json.obj []) k).isNull = true then none
          else some (pyGet (Json.obj []) k))) :=
  c9_amended (Json.obj []) exSchema9 "p" (Json.obj [])
    (by simp [schemaAfterRef, exSchema9, schemaPropsList, hasKeyJ, hasKeyList, lookupRaw])

/-! ## C10 — the method universe of the aggregator -/

theorem alistGet_filter_keys {α : Type} (ops : List (String × α)) (keys : List String)
    (m : String) (hm : keys.contains m = true) :
    alistGet (ops.filter (fun kv => keys.contains kv.1)) m = alistGet ops m := by
  induction ops with
  | nil => rfl
  | cons a rest ih =>
    rcases a with ⟨ka, va⟩
    by_cases hk : ka = m
    · subst hk
      simp only [List.filter_cons, hm]
      simp [alistGet]
    · cases hkeep : keys.contains ka <;>
        simp_all [List.filter_cons, alistGet, hk]

theorem foldl_congr_mem {α β : Type} (l : List β) (f g : α → β → α) (init : α)
    (h : ∀ st, ∀ m ∈ l, f st m = g st m) : l.foldl f init = l.foldl g init := by
  induction l generalizing init with
  | nil => rfl
  | cons b rest ih =>
    simp only [List.foldl_cons]
    rw [h init b (List.mem_cons_self b rest)]
    exact ih _ (fun st m hm => h st m (List.mem_cons_of_mem b hm))

theorem all_flatMap_alistUpd {α : Type} (g : α → List Api) (P : Api → Bool)
    (m : List (String × α)) (k : String) (f : α → α)
    (hm : (m.flatMap (fun kv => g kv.2)).all P = true)
    (hf : ∀ v, (g v).all P = true → (g (f v)).all P = true) :
    ((alistUpd m k f).flatMap (fun kv => g kv.2)).all P = true := by
  induction m with
  | nil => rfl
  | cons a rest ih =>
    rcases a with ⟨ka, va⟩
    simp only [List.flatMap_cons, List.all_append, Bool.and_eq_true] at hm
    by_cases hk : ka = k
    · subst hk
      rw [show alistUpd ((ka, va) :: rest) ka f = (ka, f va) :: rest from by
        simp [alistUpd]]
      simp only [List.flatMap_cons, List.all_append, Bool.and_eq_true]
      exact ⟨hf va hm.1, hm.2⟩
    · rw [show alistUpd ((ka, va) :: rest) k f = (ka, va) :: alistUpd rest k f from by
        simp [alistUpd, hk]]
      simp only [List.flatMap_cons, List.all_append, Bool.and_eq_true]
      exact ⟨hm.1, ih hm.2⟩

theorem all_addEntityApi (P : Api → Bool) (m : List (String × EntityData))
    (k : String) (api : Api)
    (hm : (m.flatMap (fun kv => kv.2.apis)).all P = true) (ha : P api = true) :
    ((addEntityApi m k api).flatMap (fun kv => kv.2.apis)).all P = true := by
  unfold addEntityApi
  by_cases h : alistHas m k = true
  · rw [if_pos h]
    apply all_flatMap_alistUpd (fun d => d.apis) P m k
      (fun d => { d with apis := d.apis ++ [api] }) hm
    intro v hv
    simp only [List.all_append]
    simp [hv, ha]
  · rw [if_neg h]
    simp only [List.flatMap_append, List.all_append]
    simp [hm, ha]

theorem all_addNestedApi (P : Api → Bool) (m : List (String × NestedData))
    (parent child path : String) (api : Api)
    (hm : (m.flatMap (fun kv => kv.2.apis)).all P = true) (ha : P api = true) :
    ((addNestedApi m parent child path api).flatMap (fun kv => kv.2.apis)).all P = true := by
  rw [show addNestedApi m parent child path api
      = (if alistHas m (parent ++ "/" ++ child) then
           alistUpd m (parent ++ "/" ++ child)
             (fun d => { d with apis := d.apis ++ [api] })
         else m ++ [(parent ++ "/" ++ child,
           { parent_entity := parent, nested_entity := child,
             full_path_pattern := path, apis := [api] })]) from rfl]
  by_cases h : alistHas m (parent ++ "/" ++ child) = true
  · rw [if_pos h]
    apply all_flatMap_alistUpd (fun d => d.apis) P m (parent ++ "/" ++ child)
      (fun d => { d with apis := d.apis ++ [api] }) hm
    intro v hv
    simp only [List.all_append]
    simp [hv, ha]
  · rw [if_neg h]
    simp only [List.flatMap_append, List.all_append]
    simp [hm, ha]

theorem all_addListApi (P : Api → Bool) (m : List (String × List Api))
    (k : String) (api : Api)
    (hm : (m.flatMap (fun kv => kv.2)).all P = true) (ha : P api = true) :
    ((addListApi m k api).flatMap (fun kv => kv.2)).all P = true := by
  unfold addListApi
  by_cases h : alistHas m k = true
  · rw [if_pos h]
    apply all_flatMap_alistUpd (fun l => l) P m k (fun l => l ++ [api]) hm
    intro v hv
    simp only [List.all_append]
    simp [hv, ha]
  · rw [if_neg h]
    simp only [List.flatMap_append, List.all_append]
    simp [hm, ha]

theorem goodMethods_aggStep (einfo : EntityInfo) (path : String)
    (pp : List InParam) (ops : List (String × Operation)) (st : ParsedData)
    (mth : String) (hmth : fiveLower.contains mth = true)
    (hst : GoodMethods st) : GoodMethods (aggStep einfo path pp ops st mth) := by
  have hup : VERBS.contains (pyUpper mth) = true := by
    have hmth2 : mth = "get" ∨ mth = "post" ∨ mth = "put" ∨ mth = "patch"
        ∨ mth = "delete" := by
      simpa [fiveLower] using hmth
    rcases hmth2 with h | h | h | h | h <;> subst h <;> rfl
  unfold GoodMethods allApis at hst ⊢
  unfold aggStep
  cases hop : alistGet ops mth with
  | none => exact hst
  | some op =>
    simp only [List.all_append, Bool.and_eq_true] at hst
    obtain ⟨⟨⟨⟨he, hn⟩, hr⟩, hac⟩, hfn⟩ := hst
    by_cases h1 : einfo.is_action = true
    · simp only [h1, if_pos]
      simp only [List.all_append, Bool.and_eq_true]
      exact ⟨⟨⟨⟨he, hn⟩, hr⟩, all_addListApi _ _ _ _ hac hup⟩, hfn⟩
    · simp only [eq_false_of_ne_true h1]
      by_cases h2 : einfo.is_function = true
      · simp only [h2, if_pos, Bool.false_eq_true, if_false]
        simp only [List.all_append, Bool.and_eq_true]
        exact ⟨⟨⟨⟨he, hn⟩, hr⟩, hac⟩, all_addListApi _ _ _ _ hfn hup⟩
      · simp only [eq_false_of_ne_true h2]
        by_cases h3 : einfo.is_reference = true
        · simp only [h3, if_pos, Bool.false_eq_true, if_false]
          simp only [List.all_append, Bool.and_eq_true]
          exact ⟨⟨⟨⟨he, hn⟩, all_addEntityApi _ _ _ _ hr hup⟩, hac⟩, hfn⟩
        · simp only [eq_false_of_ne_true h3]
          by_cases h4 : einfo.is_nested = true
          · simp only [h4, if_pos, Bool.false_eq_true, if_false]
            simp only [List.all_append, Bool.and_eq_true]
            exact ⟨⟨⟨⟨he, all_addNestedApi _ _ _ _ _ _ hn hup⟩, hr⟩, hac⟩, hfn⟩
          · simp only [eq_false_of_ne_true h4, Bool.false_eq_true, if_false]
            simp only [List.all_append, Bool.and_eq_true]
            exact ⟨⟨⟨⟨all_addEntityApi _ _ _ _ he hup, hn⟩, hr⟩, hac⟩, hfn⟩

/-- Claim C10: every operation record the aggregator files carries a method
in {GET, POST, PATCH, PUT, DELETE}, and removing every other verb key from
the input changes nothing — operations under other verbs contribute
neither to the counters nor to any category map, hence neither to the
catalog nor to the navigation index derived from it. -/
theorem c10_method_universe (base : String) (paths : List (String × PathItem)) :
    ((allApis (parse_openapi_spec base paths)).all
        (fun a => VERBS.contains a.method)) = true ∧
    parse_openapi_spec base (paths.map (fun p => (p.1, restrictOps p.2)))
      = parse_openapi_spec base paths := by
  constructor
  · show GoodMethods (parse_openapi_spec base paths)
    unfold parse_openapi_spec
    have hinit : GoodMethods (emptyParsed base) := by
      unfold GoodMethods allApis emptyParsed
      rfl
    have hstep : ∀ st (p : String × PathItem), GoodMethods st →
        GoodMethods (fiveLower.foldl
          (aggStep (identify_entity_type p.1) p.1 p.2.parameters p.2.ops) st) := by
      intro st p hst
      have hgen : ∀ (l : List String), (∀ m ∈ l, fiveLower.contains m = true) →
          ∀ st, GoodMethods st →
          GoodMethods (l.foldl
            (aggStep (identify_entity_type p.1) p.1 p.2.parameters p.2.ops) st) := by
        intro l
        induction l with
        | nil => intro _ st hst2; exact hst2
        | cons m rest ih =>
          intro hmem st hst2
          simp only [List.foldl_cons]
          exact ih (fun x hx => hmem x (List.mem_cons_of_mem m hx)) _
            (goodMethods_aggStep _ _ _ _ _ _ (hmem m (List.mem_cons_self m rest)) hst2)
      exact hgen fiveLower (fun m hm => by fin_cases hm <;> rfl) st hst
    have hfold : ∀ (ps : List (String × PathItem)) st, GoodMethods st →
        GoodMethods (ps.foldl
          (fun st (p : String × PathItem) =>
            fiveLower.foldl (aggStep (identify_entity_type p.1) p.1 p.2.parameters p.2.ops) st)
          st) := by
      intro ps
      induction ps with
      | nil => intro st hst; exact hst
      | cons p rest ih =>
        intro st hst
        simp only [List.foldl_cons]
        exact ih _ (hstep st p hst)
    exact hfold paths _ hinit
  · unfold parse_openapi_spec
    rw [List.foldl_map]
    apply foldl_congr_mem
    intro st p _
    apply foldl_congr_mem
    intro st2 m hm
    have hc : fiveLower.contains m = true := by fin_cases hm <;> rfl
    unfold aggStep
    simp only [restrictOps]
    rw [alistGet_filter_keys p.2.ops fiveLower m hc]

/-! ## C7 — sort order machinery -/

theorem lexLe_total (a b : List Nat) : lexLe a b = true ∨ lexLe b a = true := by
  induction a generalizing b with
  | nil => left; rfl
  | cons x xs ih =>
    cases b with
    | nil => right; rfl
    | cons y ys =>
      rcases Nat.lt_trichotomy x y with h | h | h
      · left
        simp [lexLe, h]
      · subst h
        rcases ih ys with h2 | h2
        · left
          simpa [lexLe] using h2
        · right
          simpa [lexLe] using h2
      · right
        simp [lexLe, h]

theorem lexLe_trans (a b c : List Nat) (hab : lexLe a b = true)
    (hbc : lexLe b c = true) : lexLe a c = true := by
  induction a generalizing b c with
  | nil => rfl
  | cons x xs ih =>
    cases b with
    | nil => simp [lexLe] at hab
    | cons y ys =>
      cases c with
      | nil => simp [lexLe] at hbc
      | cons z zs =>
        simp only [lexLe] at hab hbc ⊢
        rcases Nat.lt_trichotomy x y with hxy | hxy | hxy
        · rcases Nat.lt_trichotomy y z with hyz | hyz | hyz
          · simp [Nat.lt_trans hxy hyz]
          · subst hyz
            simp [hxy]
          · have hny : ¬ y < z := Nat.lt_asymm hyz
            simp [hny, hyz] at hbc
        · subst hxy
          rcases Nat.lt_trichotomy x z with hyz | hyz | hyz
          · simp [hyz]
          · subst hyz
            simp only [Nat.lt_irrefl, if_false] at hab hbc ⊢
            exact ih ys zs (by simpa using hab) (by simpa using hbc)
          · simp [hyz, Nat.lt_irrefl, Nat.lt_asymm hyz] at hbc
        · simp only [if_neg (Nat.lt_asymm hxy), if_pos hxy] at hab
          exact absurd hab (by simp)

instance : IsTotal Entry entryLe :=
  ⟨fun a b => lexLe_total (lowerKey a.name) (lowerKey b.name)⟩

instance : IsTrans Entry entryLe :=
  ⟨fun a b c => lexLe_trans (lowerKey a.name) (lowerKey b.name) (lowerKey c.name)⟩

theorem sortEntries_sorted (l : List Entry) :
    List.Sorted entryLe (sortEntries l) :=
  List.sorted_insertionSort entryLe l

theorem sortedKeys_of_sorted (l : List Entry) (h : List.Sorted entryLe l) :
    sortedKeys (nameKeysE l) = true := by
  induction l with
  | nil => rfl
  | cons a rest ih =>
    cases rest with
    | nil => rfl
    | cons b rest2 =>
      have hab : entryLe a b := (List.sorted_cons.mp h).1 b (List.mem_cons_self b rest2)
      have htail := ih (List.sorted_cons.mp h).2
      simp only [nameKeysE, List.map_cons, sortedKeys] at htail ⊢
      rw [Bool.and_eq_true]
      exact ⟨hab, htail⟩

theorem sortedKeys_sortEntries (l : List Entry) :
    sortedKeys (nameKeysE (sortEntries l)) = true :=
  sortedKeys_of_sorted _ (sortEntries_sorted l)

/-! ## C7 — stage expansions and preservation lemmas -/

theorem sortStage_eq (top : Buckets) (store : Store) :
    sortStage top store =
      (let g := sortEntries top.bGET
       let s1 := g.foldl sortStepStore store
       let po := sortEntries top.bPOST
       let s2 := po.foldl sortStepStore s1
       let pa := sortEntries top.bPATCH
       let s3 := pa.foldl sortStepStore s2
       let pu := sortEntries top.bPUT
       let s4 := pu.foldl sortStepStore s3
       let d := sortEntries top.bDELETE
       let s5 := d.foldl sortStepStore s4
       ({ bGET := g, bPOST := po, bPATCH := pa, bPUT := pu, bDELETE := d }, s5)) := by
  rfl

theorem idStage_eq (top : Buckets) (store : Store) :
    idStage top store =
      (let r1 := top.bGET.foldl idStep ([], 1, store)
       let r2 := top.bPOST.foldl idStep ([], r1.2.1, r1.2.2)
       let r3 := top.bPATCH.foldl idStep ([], r2.2.1, r2.2.2)
       let r4 := top.bPUT.foldl idStep ([], r3.2.1, r3.2.2)
       let r5 := top.bDELETE.foldl idStep ([], r4.2.1, r4.2.2)
       ({ bGET := r1.1, bPOST := r2.1, bPATCH := r3.1, bPUT := r4.1, bDELETE := r5.1 },
        r5.2.1, r5.2.2)) := by
  rfl

theorem alistGet_alistUpd_self {α : Type} (m : List (String × α)) (k : String)
    (f : α → α) : alistGet (alistUpd m k f) k = (alistGet m k).map f := by
  induction m with
  | nil => rfl
  | cons a rest ih =>
    rcases a with ⟨ka, va⟩
    by_cases hk : ka = k
    · subst hk
      simp [alistUpd, alistGet]
    · simp [alistUpd, alistGet, hk, ih]

theorem alistGet_alistUpd_other {α : Type} (m : List (String × α)) (k k2 : String)
    (f : α → α) (hne : k2 ≠ k) :
    alistGet (alistUpd m k f) k2 = alistGet m k2 := by
  induction m with
  | nil => rfl
  | cons a rest ih =>
    rcases a with ⟨ka, va⟩
    by_cases hk : ka = k
    · subst hk
      simp [alistUpd, alistGet, Ne.symm hne]
    · by_cases hk2 : ka = k2
      · subst hk2
        simp [alistUpd, alistGet, hk]
      · simp [alistUpd, alistGet, hk, hk2, ih]

theorem goodB_empty : GoodB emptyBuckets := by
  refine ⟨rfl, rfl, rfl, rfl, rfl⟩

theorem sortedKeys_nestedBucketPass (l : List Entry) :
    sortedKeys (nameKeysE (nestedBucketPass l)) = true := by
  unfold nestedBucketPass
  by_cases h : l.isEmpty = true
  · rw [if_pos h]
    rw [List.isEmpty_iff.mp h]
    rfl
  · rw [if_neg h]
    exact sortedKeys_sortEntries _

theorem goodB_sortBuckets (b : Buckets) : GoodB (sortBuckets b) := by
  exact ⟨sortedKeys_nestedBucketPass _, sortedKeys_nestedBucketPass _,
    sortedKeys_nestedBucketPass _, sortedKeys_nestedBucketPass _,
    sortedKeys_nestedBucketPass _⟩

theorem nameKeysE_stampList (l : List Entry) (c : Nat) :
    nameKeysE (stampList l c).1 = nameKeysE l := by
  induction l generalizing c with
  | nil => rfl
  | cons e rest ih =>
    have hr := ih (c + 1)
    simp only [nameKeysE] at hr
    simp only [stampList, nameKeysE, List.map_cons, hr]

theorem nestedKeys_stampList (l : List Entry) (c : Nat) :
    (stampList l c).1.map Entry.nestedKey = l.map Entry.nestedKey := by
  induction l generalizing c with
  | nil => rfl
  | cons e rest ih =>
    simp only [stampList, List.map_cons]
    rw [ih (c + 1)]

theorem nameKeysE_stampIfNonempty (l : List Entry) (c : Nat) :
    nameKeysE (stampIfNonempty l c).1 = nameKeysE l := by
  unfold stampIfNonempty
  by_cases h : l.isEmpty = true
  · rw [if_pos h]
  · rw [if_neg h]
    exact nameKeysE_stampList l c

theorem goodB_stampBuckets (b : Buckets) (c : Nat) (hb : GoodB b) :
    GoodB (stampBuckets b c).1 := by
  obtain ⟨h1, h2, h3, h4, h5⟩ := hb
  refine ⟨?_, ?_, ?_, ?_, ?_⟩ <;>
    simp only [stampBuckets, nameKeysE_stampIfNonempty] <;> assumption

theorem sortStepStore_eq_none {store : Store} {e : Entry}
    (h : e.nestedKey = none) : sortStepStore store e = store := by
  unfold sortStepStore
  simp only [h]

theorem sortStepStore_eq_miss {store : Store} {e : Entry} {k0 : String}
    (h1 : e.nestedKey = some k0) (h2 : alistGet store k0 = none) :
    sortStepStore store e = store := by
  unfold sortStepStore
  simp only [h1, h2]

theorem sortStepStore_eq_hit {store : Store} {e : Entry} {k0 : String} {b : Buckets}
    (h1 : e.nestedKey = some k0) (h2 : alistGet store k0 = some b) :
    sortStepStore store e = alistUpd store k0 (fun _ => sortBuckets b) := by
  unfold sortStepStore
  simp only [h1, h2]

theorem goodB_sortStepStore_at (store : Store) (e : Entry) (k : String)
    (h : GoodB (storeGetD store k)) :
    GoodB (storeGetD (sortStepStore store e) k) := by
  cases hek : e.nestedKey with
  | none =>
    rw [sortStepStore_eq_none hek]
    exact h
  | some k0 =>
    cases hg : alistGet store k0 with
    | none =>
      rw [sortStepStore_eq_miss hek hg]
      exact h
    | some b =>
      rw [sortStepStore_eq_hit hek hg]
      by_cases hkk : k = k0
      · subst hkk
        unfold storeGetD
        rw [alistGet_alistUpd_self, hg]
        exact goodB_sortBuckets b
      · unfold storeGetD
        rw [alistGet_alistUpd_other _ _ _ _ hkk]
        exact h

theorem goodB_sortStepStore_self (store : Store) (e : Entry) (k : String)
    (hk : e.nestedKey = some k) :
    GoodB (storeGetD (sortStepStore store e) k) := by
  cases hg : alistGet store k with
  | none =>
    rw [sortStepStore_eq_miss hk hg]
    unfold storeGetD
    rw [hg]
    exact goodB_empty
  | some b =>
    rw [sortStepStore_eq_hit hk hg]
    unfold storeGetD
    rw [alistGet_alistUpd_self, hg]
    exact goodB_sortBuckets b

theorem goodB_foldl_sortStep (l : List Entry) (store : Store) (k : String)
    (h : GoodB (storeGetD store k)) :
    GoodB (storeGetD (l.foldl sortStepStore store) k) := by
  induction l generalizing store with
  | nil => exact h
  | cons e rest ih =>
    simp only [List.foldl_cons]
    exact ih _ (goodB_sortStepStore_at store e k h)

theorem storeInv_foldl_sortStep_pres (l : List Entry) (store : Store)
    (E : List Entry) (h : StoreInv store E) :
    StoreInv (l.foldl sortStepStore store) E := by
  intro e he k hk
  exact goodB_foldl_sortStep l store k (h e he k hk)

theorem storeInv_foldl_sortStep_self (l : List Entry) (store : Store) :
    StoreInv (l.foldl sortStepStore store) l := by
  induction l generalizing store with
  | nil => intro e he; exact absurd he (List.not_mem_nil e)
  | cons e0 rest ih =>
    intro e he k hk
    simp only [List.foldl_cons]
    rcases List.mem_cons.mp he with he0 | her
    · subst he0
      exact goodB_foldl_sortStep rest _ k (goodB_sortStepStore_self store e k hk)
    · exact ih (sortStepStore store e0) e her k hk

theorem idStep_eq_none {acc : List Entry × Nat × Store} {e : Entry}
    (h : e.nestedKey = none) :
    idStep acc e = (acc.1 ++ [{ e with id := some acc.2.1 }], acc.2.1 + 1, acc.2.2) := by
  unfold idStep
  simp only [h]

theorem idStep_eq_miss {acc : List Entry × Nat × Store} {e : Entry} {k0 : String}
    (h1 : e.nestedKey = some k0) (h2 : alistGet acc.2.2 k0 = none) :
    idStep acc e = (acc.1 ++ [{ e with id := some acc.2.1 }], acc.2.1 + 1, acc.2.2) := by
  unfold idStep
  simp only [h1, h2]

theorem idStep_eq_hit {acc : List Entry × Nat × Store} {e : Entry} {k0 : String}
    {b : Buckets} (h1 : e.nestedKey = some k0) (h2 : alistGet acc.2.2 k0 = some b) :
    idStep acc e = (acc.1 ++ [{ e with id := some acc.2.1 }],
      (stampBuckets b (acc.2.1 + 1)).2,
      alistUpd acc.2.2 k0 (fun _ => (stampBuckets b (acc.2.1 + 1)).1)) := by
  unfold idStep
  simp only [h1, h2]

theorem goodB_idStep (acc : List Entry × Nat × Store) (e : Entry) (k : String)
    (h : GoodB (storeGetD acc.2.2 k)) :
    GoodB (storeGetD (idStep acc e).2.2 k) := by
  cases hek : e.nestedKey with
  | none =>
    rw [idStep_eq_none hek]
    exact h
  | some k0 =>
    cases hg : alistGet acc.2.2 k0 with
    | none =>
      rw [idStep_eq_miss hek hg]
      exact h
    | some b =>
      rw [idStep_eq_hit hek hg]
      by_cases hkk : k = k0
      · subst hkk
        unfold storeGetD
        simp only
        rw [alistGet_alistUpd_self, hg]
        have hb : GoodB b := by
          unfold storeGetD at h
          rw [hg] at h
          exact h
        exact goodB_stampBuckets b _ hb
      · unfold storeGetD
        simp only
        rw [alistGet_alistUpd_other _ _ _ _ hkk]
        exact h

theorem goodB_foldl_idStep (l : List Entry) (acc : List Entry × Nat × Store)
    (k : String) (h : GoodB (storeGetD acc.2.2 k)) :
    GoodB (storeGetD (l.foldl idStep acc).2.2 k) := by
  induction l generalizing acc with
  | nil => exact h
  | cons e rest ih =>
    simp only [List.foldl_cons]
    exact ih _ (goodB_idStep acc e k h)

/-- The top lists that id assignment produces: the accumulated prefix plus
the input entries, each with only its `id` replaced — so every projection
that ignores `id` is preserved. -/
theorem foldl_idStep_map {γ : Type} (f : Entry → γ)
    (hf : ∀ e i, f { e with id := i } = f e)
    (l : List Entry) (acc : List Entry × Nat × Store) :
    (l.foldl idStep acc).1.map f = acc.1.map f ++ l.map f := by
  induction l generalizing acc with
  | nil => simp
  | cons e rest ih =>
    simp only [List.foldl_cons]
    have hstep : (idStep acc e).1 = acc.1 ++ [{ e with id := some acc.2.1 }] := by
      cases hek : e.nestedKey with
      | none =>
        rw [idStep_eq_none hek]
        simp [hek]
      | some k0 =>
        cases hg : alistGet acc.2.2 k0 with
        | none =>
          rw [idStep_eq_miss hek hg]
          simp [hek]
        | some b =>
          rw [idStep_eq_hit hek hg]
          simp [hek]
    rw [ih, hstep]
    simp [hf]

theorem storeInv_foldl_idStep_pres (l : List Entry) (acc : List Entry × Nat × Store)
    (E : List Entry) (h : StoreInv acc.2.2 E) :
    StoreInv (l.foldl idStep acc).2.2 E :=
  fun e he k hk => goodB_foldl_idStep l acc k (h e he k hk)

theorem storeInv_of_map_eq (store : Store) (E E2 : List Entry)
    (hmap : E2.map Entry.nestedKey = E.map Entry.nestedKey)
    (h : StoreInv store E) : StoreInv store E2 := by
  intro e2 he2 k hk
  have hmem : some k ∈ E2.map Entry.nestedKey := by
    rw [← hk]
    exact List.mem_map_of_mem Entry.nestedKey he2
  rw [hmap] at hmem
  obtain ⟨e, heE, hke⟩ := List.mem_map.mp hmem
  exact h e heE k hke

theorem nameKeysE_foldl_idStep (l : List Entry) (ctr : Nat) (s : Store) :
    nameKeysE (l.foldl idStep ([], ctr, s)).1 = nameKeysE l := by
  have h := foldl_idStep_map (fun e => lowerKey e.name) (fun e i => rfl) l ([], ctr, s)
  unfold nameKeysE
  rw [h]
  simp

theorem nestedKeys_foldl_idStep (l : List Entry) (ctr : Nat) (s : Store) :
    (l.foldl idStep ([], ctr, s)).1.map Entry.nestedKey = l.map Entry.nestedKey := by
  have h := foldl_idStep_map Entry.nestedKey (fun e i => rfl) l ([], ctr, s)
  rw [h]
  simp

theorem bucketSortedP_map_serialize (s : Store) (l : List Entry) :
    bucketSortedP (l.map (serializeEntry s)) = sortedKeys (nameKeysE l) := by
  unfold bucketSortedP nameKeysE
  rw [List.map_map]
  rfl

theorem bucketSortedN_map_serialize (l : List Entry) :
    bucketSortedN (l.map serializeNested) = sortedKeys (nameKeysE l) := by
  unfold bucketSortedN nameKeysE
  rw [List.map_map]
  rfl

theorem nestedAll_of_goodB (b : Buckets) (hb : GoodB b) :
    ((VERBS.map (fun v => (v, (b.get v).map serializeNested))).all
      (fun kv => bucketSortedN kv.2)) = true := by
  obtain ⟨h1, h2, h3, h4, h5⟩ := hb
  simp only [VERBS, List.map_cons, List.map_nil, List.all_cons, List.all_nil,
    Bool.and_true, Bool.and_eq_true]
  refine ⟨?_, ?_, ?_, ?_, ?_⟩ <;>
    rw [show (Buckets.get _ _) = _ from rfl, bucketSortedN_map_serialize] <;>
    assumption

/-- The serialized catalog of any top/store pair whose five top buckets are
sorted and whose referenced nested buckets are sorted is entirely sorted. -/
theorem catalogSorted_of (title : String) (t : Buckets) (s : Store)
    (hsg : sortedKeys (nameKeysE t.bGET) = true)
    (hsp : sortedKeys (nameKeysE t.bPOST) = true)
    (hsa : sortedKeys (nameKeysE t.bPATCH) = true)
    (hsu : sortedKeys (nameKeysE t.bPUT) = true)
    (hsd : sortedKeys (nameKeysE t.bDELETE) = true)
    (hig : StoreInv s t.bGET)
    (hip : StoreInv s t.bPOST)
    (hia : StoreInv s t.bPATCH)
    (hiu : StoreInv s t.bPUT)
    (hid : StoreInv s t.bDELETE) :
    catalogSorted (serializeCatalog { api_title := title, top := t, store := s }) = true := by
  have hone : ∀ (l : List Entry), sortedKeys (nameKeysE l) = true → StoreInv s l →
      bucketSortedP (l.map (serializeEntry s)) = true ∧
        ((l.map (serializeEntry s)).all (fun p =>
          match p.nested with
          | none => true
          | some bs => bs.all (fun kv => bucketSortedN kv.2))) = true := by
    intro l hsort hinv
    constructor
    · rw [bucketSortedP_map_serialize]
      exact hsort
    · rw [List.all_eq_true]
      intro p hp
      obtain ⟨e, he, hpe⟩ := List.mem_map.mp hp
      subst hpe
      cases hek : e.nestedKey with
      | none =>
        show (match (serializeEntry s e).nested with
              | none => true
              | some bs => bs.all (fun kv => bucketSortedN kv.2)) = true
        unfold serializeEntry
        rw [hek]
        rfl
      | some k =>
        show (match (serializeEntry s e).nested with
              | none => true
              | some bs => bs.all (fun kv => bucketSortedN kv.2)) = true
        unfold serializeEntry
        rw [hek]
        simp only [Option.map_some]
        exact nestedAll_of_goodB _ (hinv e he k hek)
  unfold catalogSorted serializeCatalog
  simp only [VERBS, List.map_cons, List.map_nil, List.all_cons, List.all_nil,
    Bool.and_true, Bool.and_eq_true]
  exact ⟨hone t.bGET hsg hig, hone t.bPOST hsp hip, hone t.bPATCH hsa hia,
    hone t.bPUT hsu hiu, hone t.bDELETE hsd hid⟩

/-- After id assignment on sorted top buckets with a store satisfying the
invariant, the serialized catalog is sorted. -/
theorem catalogSorted_after_idStage (title : String) (topS : Buckets) (s5 : Store)
    (hsg : sortedKeys (nameKeysE topS.bGET) = true)
    (hsp : sortedKeys (nameKeysE topS.bPOST) = true)
    (hsa : sortedKeys (nameKeysE topS.bPATCH) = true)
    (hsu : sortedKeys (nameKeysE topS.bPUT) = true)
    (hsd : sortedKeys (nameKeysE topS.bDELETE) = true)
    (hig : StoreInv s5 topS.bGET)
    (hip : StoreInv s5 topS.bPOST)
    (hia : StoreInv s5 topS.bPATCH)
    (hiu : StoreInv s5 topS.bPUT)
    (hidd : StoreInv s5 topS.bDELETE) :
    catalogSorted (serializeCatalog
      { api_title := title, top := (idStage topS s5).1,
        store := (idStage topS s5).2.2 }) = true := by
  have hid := idStage_eq topS s5
  simp only at hid
  rw [hid]
  set r1 := topS.bGET.foldl idStep ([], 1, s5) with hr1
  set r2 := topS.bPOST.foldl idStep ([], r1.2.1, r1.2.2) with hr2
  set r3 := topS.bPATCH.foldl idStep ([], r2.2.1, r2.2.2) with hr3
  set r4 := topS.bPUT.foldl idStep ([], r3.2.1, r3.2.2) with hr4
  set r5 := topS.bDELETE.foldl idStep ([], r4.2.1, r4.2.2) with hr5
  have hinv1g : StoreInv r1.2.2 topS.bGET := by
    rw [hr1]
    exact storeInv_foldl_idStep_pres _ _ _ hig
  have hinv1p : StoreInv r1.2.2 topS.bPOST := by
    rw [hr1]
    exact storeInv_foldl_idStep_pres _ _ _ hip
  have hinv1a : StoreInv r1.2.2 topS.bPATCH := by
    rw [hr1]
    exact storeInv_foldl_idStep_pres _ _ _ hia
  have hinv1u : StoreInv r1.2.2 topS.bPUT := by
    rw [hr1]
    exact storeInv_foldl_idStep_pres _ _ _ hiu
  have hinv1d : StoreInv r1.2.2 topS.bDELETE := by
    rw [hr1]
    exact storeInv_foldl_idStep_pres _ _ _ hidd
  have hinv2g : StoreInv r2.2.2 topS.bGET := by
    rw [hr2]
    exact storeInv_foldl_idStep_pres _ _ _ hinv1g
  have hinv2p : StoreInv r2.2.2 topS.bPOST := by
    rw [hr2]
    exact storeInv_foldl_idStep_pres _ _ _ hinv1p
  have hinv2a : StoreInv r2.2.2 topS.bPATCH := by
    rw [hr2]
    exact storeInv_foldl_idStep_pres _ _ _ hinv1a
  have hinv2u : StoreInv r2.2.2 topS.bPUT := by
    rw [hr2]
    exact storeInv_foldl_idStep_pres _ _ _ hinv1u
  have hinv2d : StoreInv r2.2.2 topS.bDELETE := by
    rw [hr2]
    exact storeInv_foldl_idStep_pres _ _ _ hinv1d
  have hinv3g : StoreInv r3.2.2 topS.bGET := by
    rw [hr3]
    exact storeInv_foldl_idStep_pres _ _ _ hinv2g
  have hinv3p : StoreInv r3.2.2 topS.bPOST := by
    rw [hr3]
    exact storeInv_foldl_idStep_pres _ _ _ hinv2p
  have hinv3a : StoreInv r3.2.2 topS.bPATCH := by
    rw [hr3]
    exact storeInv_foldl_idStep_pres _ _ _ hinv2a
  have hinv3u : StoreInv r3.2.2 topS.bPUT := by
    rw [hr3]
    exact storeInv_foldl_idStep_pres _ _ _ hinv2u
  have hinv3d : StoreInv r3.2.2 topS.bDELETE := by
    rw [hr3]
    exact storeInv_foldl_idStep_pres _ _ _ hinv2d
  have hinv4g : StoreInv r4.2.2 topS.bGET := by
    rw [hr4]
    exact storeInv_foldl_idStep_pres _ _ _ hinv3g
  have hinv4p : StoreInv r4.2.2 topS.bPOST := by
    rw [hr4]
    exact storeInv_foldl_idStep_pres _ _ _ hinv3p
  have hinv4a : StoreInv r4.2.2 topS.bPATCH := by
    rw [hr4]
    exact storeInv_foldl_idStep_pres _ _ _ hinv3a
  have hinv4u : StoreInv r4.2.2 topS.bPUT := by
    rw [hr4]
    exact storeInv_foldl_idStep_pres _ _ _ hinv3u
  have hinv4d : StoreInv r4.2.2 topS.bDELETE := by
    rw [hr4]
    exact storeInv_foldl_idStep_pres _ _ _ hinv3d
  have hinv5g : StoreInv r5.2.2 topS.bGET := by
    rw [hr5]
    exact storeInv_foldl_idStep_pres _ _ _ hinv4g
  have hinv5p : StoreInv r5.2.2 topS.bPOST := by
    rw [hr5]
    exact storeInv_foldl_idStep_pres _ _ _ hinv4p
  have hinv5a : StoreInv r5.2.2 topS.bPATCH := by
    rw [hr5]
    exact storeInv_foldl_idStep_pres _ _ _ hinv4a
  have hinv5u : StoreInv r5.2.2 topS.bPUT := by
    rw [hr5]
    exact storeInv_foldl_idStep_pres _ _ _ hinv4u
  have hinv5d : StoreInv r5.2.2 topS.bDELETE := by
    rw [hr5]
    exact storeInv_foldl_idStep_pres _ _ _ hinv4d
  apply catalogSorted_of
  · show sortedKeys (nameKeysE r1.1) = true
    rw [hr1, nameKeysE_foldl_idStep]
    exact hsg
  · show sortedKeys (nameKeysE r2.1) = true
    rw [hr2, nameKeysE_foldl_idStep]
    exact hsp
  · show sortedKeys (nameKeysE r3.1) = true
    rw [hr3, nameKeysE_foldl_idStep]
    exact hsa
  · show sortedKeys (nameKeysE r4.1) = true
    rw [hr4, nameKeysE_foldl_idStep]
    exact hsu
  · show sortedKeys (nameKeysE r5.1) = true
    rw [hr5, nameKeysE_foldl_idStep]
    exact hsd
  · show StoreInv r5.2.2 r1.1
    refine storeInv_of_map_eq _ topS.bGET _ ?_ hinv5g
    rw [hr1]
    exact nestedKeys_foldl_idStep _ _ _
  · show StoreInv r5.2.2 r2.1
    refine storeInv_of_map_eq _ topS.bPOST _ ?_ hinv5p
    rw [hr2]
    exact nestedKeys_foldl_idStep _ _ _
  · show StoreInv r5.2.2 r3.1
    refine storeInv_of_map_eq _ topS.bPATCH _ ?_ hinv5a
    rw [hr3]
    exact nestedKeys_foldl_idStep _ _ _
  · show StoreInv r5.2.2 r4.1
    refine storeInv_of_map_eq _ topS.bPUT _ ?_ hinv5u
    rw [hr4]
    exact nestedKeys_foldl_idStep _ _ _
  · show StoreInv r5.2.2 r5.1
    refine storeInv_of_map_eq _ topS.bDELETE _ ?_ hinv5d
    rw [hr5]
    exact nestedKeys_foldl_idStep _ _ _

/-- Claim C7: in the finished serialized catalog, every verb bucket — the
five top-level buckets and each verb bucket inside every nestedEntities
attachment — is non-decreasing by case-insensitive name. -/
theorem c7_sort_invariant (title : String) (pd : ParsedData) :
    catalogSorted (serializeCatalog (generate_simplified_output title pd)) = true := by
  unfold generate_simplified_output
  simp only [sortStage_eq]
  apply catalogSorted_after_idStage
  · exact sortedKeys_sortEntries _
  · exact sortedKeys_sortEntries _
  · exact sortedKeys_sortEntries _
  · exact sortedKeys_sortEntries _
  · exact sortedKeys_sortEntries _
  · exact storeInv_foldl_sortStep_pres _ _ _
      (storeInv_foldl_sortStep_pres _ _ _
        (storeInv_foldl_sortStep_pres _ _ _
          (storeInv_foldl_sortStep_pres _ _ _
            (storeInv_foldl_sortStep_self _ _))))
  · exact storeInv_foldl_sortStep_pres _ _ _
      (storeInv_foldl_sortStep_pres _ _ _
        (storeInv_foldl_sortStep_pres _ _ _
          (storeInv_foldl_sortStep_self _ _)))
  · exact storeInv_foldl_sortStep_pres _ _ _
      (storeInv_foldl_sortStep_pres _ _ _
        (storeInv_foldl_sortStep_self _ _))
  · exact storeInv_foldl_sortStep_pres _ _ _
      (storeInv_foldl_sortStep_self _ _)
  · exact storeInv_foldl_sortStep_self _ _

/-! ## C3 — two-pass duplicate resolution -/

/-- Claim C3 counterexample: two colliding operations whose URLs carry no
`.svc/` marker.  The claim's pass-1 prefix (the URL's first path segment
`ASet`, `Set`-stripped and readable, giving `"A - N"`) differs from what
the code computes (the whole URL cut at the first `(` or `/`, which is
empty here, giving `" - N"`). -/
theorem c3_counterexample :
    namesOf (resolve_duplicate_names [exDupA, exDupB]) = [" - N", " - N"] ∧
    specClaimPrefix exDupA.url ++ " - " ++ "N" = "A - N" ∧
    ¬ (" - N" = "A - N") := by
  refine ⟨by rfl, by rfl, by decide⟩

/-- Claim C3 as amended: duplicate resolution is the two-pass escalation
exactly as claimed — pass 1 rewrites every member of a colliding name to
`"{prefix} - {name}"`, pass 2 recounts and appends `", {second param key}"`
to entries that still collide and have a second path parameter with a
non-empty key — except that the prefix is the URL's text after the last
`.svc/` marker (the whole URL when the marker is absent) cut at the first
`(` or `/`, `Set`-stripped and readable, rather than the URL's first path
segment. -/
theorem c3_amended (apis : List Entry) :
    resolve_duplicate_names apis = specDupResolve apis := by
  unfold resolve_duplicate_names specDupResolve
  by_cases h : (namesOf apis).all (fun n => !isDup (namesOf apis) n) = true
  · rw [if_pos h]
    have hnone : ∀ a ∈ apis, isDup (namesOf apis) a.name = false := by
      intro a ha
      have := List.all_eq_true.mp h a.name (List.mem_map_of_mem Entry.name ha)
      simpa using this
    have h1 : dupPass1 (namesOf apis) apis = apis := by
      have hm : dupPass1 (namesOf apis) apis = apis.map id := by
        unfold dupPass1
        apply List.map_congr_left
        intro a ha
        simp [hnone a ha]
      simpa using hm
    rw [h1]
    have h2 : dupPass2 (namesOf apis) apis = apis := by
      have hm : dupPass2 (namesOf apis) apis = apis.map id := by
        unfold dupPass2
        apply List.map_congr_left
        intro a ha
        simp [hnone a ha]
      simpa using hm
    exact h2.symm
  · rw [if_neg h]

/-! ## C1 — id assignment on the serialized catalog -/

/-- Claim C1, evaluated at the failing input: the catalog built from
`exPaths` has four entries, but its id multiset is `{1, 3, 4, 4}` — id 2
is missing and id 4 appears twice, because the two operations of entity
`ASet` share one `nested_entities` dict whose ids are assigned twice, the
second visit overwriting the first. -/
theorem c1_failing_catalog :
    catalogIds exDoc = [1, 4, 3, 4] ∧
    catalogCount exDoc = 4 ∧
    (catalogIds exDoc).contains 2 = false ∧
    (catalogIds exDoc).count 4 = 2 := by
  exact ⟨rfl, rfl, rfl, rfl⟩

/-! ## C2 — the Options Indexer against the catalog -/

theorem processNested_proj (l : List NItem) (v : String) (c : Nat) :
    (processNested l v c).2.1.map (fun p => (⟨v, p.1, p.2⟩ : NestedIdx))
      = (processNested l v c).1.map projNested := by
  induction l generalizing c with
  | nil => rfl
  | cons it rest ih =>
    simp only [processNested, List.map_cons]
    rw [ih (c + 1)]
    rfl

theorem processNested_len (l : List NItem) (v : String) (c : Nat) :
    (processNested l v c).1.length = l.length := by
  induction l generalizing c with
  | nil => rfl
  | cons it rest ih =>
    simp only [processNested, List.length_cons]
    rw [ih (c + 1)]

theorem pnbStep_get_other (acc : List (String × List NItem) × List NestedIdx × Nat)
    (v w : String) (hw : w ≠ v) :
    alistGet (pnbStep acc v).1 w = alistGet acc.1 w := by
  unfold pnbStep
  cases hg : alistGet acc.1 v with
  | none => rfl
  | some l =>
    by_cases he : l.isEmpty = true
    · simp only [if_pos he]
    · simp only [if_neg he]
      exact alistGet_alistUpd_other _ _ _ _ hw

theorem foldl_pnbStep_get_notin (vs : List String)
    (acc : List (String × List NItem) × List NestedIdx × Nat)
    (w : String) (hw : w ∉ vs) :
    alistGet (vs.foldl pnbStep acc).1 w = alistGet acc.1 w := by
  induction vs generalizing acc with
  | nil => rfl
  | cons v rest ih =>
    simp only [List.foldl_cons]
    rw [ih _ (fun h => hw (List.mem_cons_of_mem v h))]
    exact pnbStep_get_other acc v w (fun h => hw (h ▸ List.mem_cons_self v rest))

theorem foldl_pnbStep_proj (vs : List String) (hnd : vs.Nodup) :
    ∀ (acc : List (String × List NItem) × List NestedIdx × Nat),
    (vs.foldl pnbStep acc).2.1 =
      acc.2.1 ++ vs.flatMap (fun v =>
        ((alistGet (vs.foldl pnbStep acc).1 v).getD []).map projNested) := by
  induction vs with
  | nil => intro acc; simp
  | cons v rest ih =>
    intro acc
    have hv : v ∉ rest := (List.nodup_cons.mp hnd).1
    have hrest : rest.Nodup := (List.nodup_cons.mp hnd).2
    simp only [List.foldl_cons, List.flatMap_cons]
    rw [ih hrest (pnbStep acc v)]
    have hfinal : alistGet (rest.foldl pnbStep (pnbStep acc v)).1 v
        = alistGet (pnbStep acc v).1 v := foldl_pnbStep_get_notin rest _ v hv
    have hrestsame : ∀ w ∈ rest,
        alistGet (rest.foldl pnbStep (pnbStep acc v)).1 w
          = alistGet (rest.foldl pnbStep (pnbStep acc v)).1 w := fun _ _ => rfl
    have hstep : (pnbStep acc v).2.1 =
        acc.2.1 ++ ((alistGet (pnbStep acc v).1 v).getD []).map projNested := by
      unfold pnbStep
      cases hg : alistGet acc.1 v with
      | none =>
        simp [hg]
      | some l =>
        by_cases he : l.isEmpty = true
        · simp only [if_pos he]
          rw [List.isEmpty_iff.mp he] at hg
          simp [hg]
        · simp only [if_neg he]
          rw [alistGet_alistUpd_self, hg]
          simp only [Option.map_some', Option.getD_some]
          rw [← processNested_proj]
    rw [hfinal, hstep]
    simp [List.append_assoc]

theorem process_array_proj (l : List PItem) (v : String) (c : Nat) :
    (process_array l v c).2.1 = (process_array l v c).1.map projItem := by
  induction l generalizing c with
  | nil => rfl
  | cons it rest ih =>
    cases hn : it.nested with
    | none =>
      simp only [process_array, hn, List.map_cons]
      rw [ih (c + 1)]
      rfl
    | some bs =>
      simp only [process_array, hn, List.map_cons]
      rw [ih _]
      congr 1
      unfold projItem
      simp only
      have hmain := foldl_pnbStep_proj VERBS (by decide) (bs, ([] : List NestedIdx), c + 1)
      simp only [List.nil_append] at hmain
      show ({ name := it.name, id := c,
              nested := if (processNestedBuckets bs (c + 1)).2.1.isEmpty then none
                        else some (processNestedBuckets bs (c + 1)).2.1 } : IdxEntry) = _
      rw [show (processNestedBuckets bs (c + 1)).2.1
          = VERBS.flatMap (fun v2 =>
              ((alistGet (processNestedBuckets bs (c + 1)).1 v2).getD []).map projNested)
        from hmain]
      rfl

theorem process_array_len (l : List PItem) (v : String) (c : Nat) :
    (process_array l v c).1.length = l.length := by
  induction l generalizing c with
  | nil => rfl
  | cons it rest ih =>
    cases hn : it.nested with
    | none =>
      simp only [process_array, hn, List.length_cons]
      rw [ih (c + 1)]
    | some bs =>
      simp only [process_array, hn, List.length_cons]
      rw [ih _]

theorem pfStep_get_other (acc : List (String × List PItem) × List (String × List IdxEntry) × Nat)
    (v w : String) (hw : w ≠ v) :
    alistGet (pfStep acc v).1 w = alistGet acc.1 w := by
  unfold pfStep
  cases hg : alistGet acc.1 v with
  | none => rfl
  | some l =>
    by_cases he : l.isEmpty = true
    · simp only [if_pos he]
    · simp only [if_neg he]
      exact alistGet_alistUpd_other _ _ _ _ hw

theorem foldl_pfStep_get_notin (vs : List String)
    (acc : List (String × List PItem) × List (String × List IdxEntry) × Nat)
    (w : String) (hw : w ∉ vs) :
    alistGet (vs.foldl pfStep acc).1 w = alistGet acc.1 w := by
  induction vs generalizing acc with
  | nil => rfl
  | cons v rest ih =>
    simp only [List.foldl_cons]
    rw [ih _ (fun h => hw (List.mem_cons_of_mem v h))]
    exact pfStep_get_other acc v w (fun h => hw (h ▸ List.mem_cons_self v rest))

theorem foldl_pfStep_proj (vs : List String) (hnd : vs.Nodup) :
    ∀ (acc : List (String × List PItem) × List (String × List IdxEntry) × Nat),
    (vs.foldl pfStep acc).2.1 =
      acc.2.1 ++ vs.filterMap (fun v =>
        match alistGet (vs.foldl pfStep acc).1 v with
        | some l => if l.isEmpty then none else some (v, l.map projItem)
        | none => none) := by
  induction vs with
  | nil => intro acc; simp
  | cons v rest ih =>
    intro acc
    have hv : v ∉ rest := (List.nodup_cons.mp hnd).1
    have hrest : rest.Nodup := (List.nodup_cons.mp hnd).2
    simp only [List.foldl_cons, List.filterMap_cons]
    rw [ih hrest (pfStep acc v)]
    have hfinal : alistGet (rest.foldl pfStep (pfStep acc v)).1 v
        = alistGet (pfStep acc v).1 v := foldl_pfStep_get_notin rest _ v hv
    rw [hfinal]
    unfold pfStep
    cases hg : alistGet acc.1 v with
    | none =>
      simp [hg]
    | some l =>
      by_cases he : l.isEmpty = true
      · simp only [if_pos he]
        simp [hg, he]
      · simp only [if_neg he]
        rw [alistGet_alistUpd_self, hg]
        simp only [Option.map_some', Option.getD_some]
        have hlen : ((process_array l v acc.2.2).1).isEmpty = false := by
          cases hE : ((process_array l v acc.2.2).1).isEmpty
          · rfl
          · exfalso
            have h0 : (process_array l v acc.2.2).1 = [] := List.isEmpty_iff.mp hE
            have h1 := process_array_len l v acc.2.2
            rw [h0] at h1
            have hl0 : l = [] := List.length_eq_zero.mp h1.symm
            rw [hl0] at he
            exact he rfl
        simp only [hlen, if_false]
        rw [process_array_proj]
        simp [List.append_assoc]

theorem denseFrom_append (c : Nat) (l1 l2 : List (Option Nat)) :
    denseFrom c (l1 ++ l2) = (denseFrom c l1 && denseFrom (c + l1.length) l2) := by
  induction l1 generalizing c with
  | nil => simp [denseFrom]
  | cons x rest ih =>
    have h1 : denseFrom c ((x :: rest) ++ l2)
        = ((x == some c) && denseFrom (c + 1) (rest ++ l2)) := rfl
    have h2 : denseFrom c (x :: rest)
        = ((x == some c) && denseFrom (c + 1) rest) := rfl
    rw [h1, h2, ih (c + 1)]
    simp only [List.length_cons, Bool.and_assoc]
    have hc : c + 1 + rest.length = c + (rest.length + 1) := by omega
    rw [hc]

theorem alistUpd_const_self {α : Type} (m : List (String × α)) (k : String) (x : α)
    (h : alistGet m k = some x) : alistUpd m k (fun _ => x) = m := by
  induction m with
  | nil => rfl
  | cons a rest ih =>
    rcases a with ⟨ka, va⟩
    by_cases hk : ka = k
    · subst hk
      have h2 : va = x := by simpa [alistGet] using h
      subst h2
      simp [alistUpd]
    · simp only [alistGet, if_neg hk] at h
      simp [alistUpd, hk, ih h]

theorem processNested_dense (l : List NItem) (v : String) (c : Nat)
    (hd : denseFrom c (l.map NItem.id) = true)
    (hm : (l.all (fun n => n.method == v)) = true) :
    (processNested l v c).1 = l ∧ (processNested l v c).2.2 = c + l.length := by
  induction l generalizing c with
  | nil => exact ⟨rfl, rfl⟩
  | cons it rest ih =>
    simp only [List.map_cons, denseFrom, Bool.and_eq_true, beq_iff_eq] at hd
    simp only [List.all_cons, Bool.and_eq_true, beq_iff_eq] at hm
    obtain ⟨hid, hdrest⟩ := hd
    obtain ⟨hmv, hmrest⟩ := hm
    have hrest := ih (c + 1) hdrest (by
      rw [List.all_eq_true]
      intro n hn
      simpa using List.all_eq_true.mp hmrest n hn)
    have hit : ({ it with id := some c, method := v } : NItem) = it := by
      cases it
      simp_all
    constructor
    · simp only [processNested]
      rw [hit, hrest.1]
    · simp only [processNested]
      rw [hrest.2]
      simp only [List.length_cons]
      omega

theorem foldl_pnbStep_dense (vs : List String) :
    ∀ (bs : List (String × List NItem)) (tri : List NestedIdx) (c : Nat),
    denseFrom c (vs.flatMap (fun v => ((alistGet bs v).getD []).map NItem.id)) = true →
    (vs.all (fun v => ((alistGet bs v).getD []).all (fun n => n.method == v))) = true →
    (vs.foldl pnbStep (bs, tri, c)).1 = bs ∧
    (vs.foldl pnbStep (bs, tri, c)).2.2
      = c + (vs.flatMap (fun v => ((alistGet bs v).getD []).map NItem.id)).length := by
  induction vs with
  | nil =>
    intro bs tri c _ _
    exact ⟨rfl, by simp⟩
  | cons v rest ih =>
    intro bs tri c hd hm
    simp only [List.flatMap_cons, denseFrom_append, Bool.and_eq_true] at hd
    simp only [List.all_cons, Bool.and_eq_true] at hm
    obtain ⟨hdv, hdrest⟩ := hd
    obtain ⟨hmv, hmrest⟩ := hm
    simp only [List.foldl_cons]
    cases hg : alistGet bs v with
    | none =>
      have hstep : pnbStep (bs, tri, c) v = (bs, tri, c) := by
        unfold pnbStep
        simp [hg]
      rw [hstep]
      have hr := ih bs tri c (by simpa [hg] using hdrest) hmrest
      refine ⟨hr.1, ?_⟩
      rw [hr.2]
      simp [List.flatMap_cons, hg]
    | some l =>
      by_cases he : l.isEmpty = true
      · have hl0 : l = [] := List.isEmpty_iff.mp he
        subst hl0
        have hstep : pnbStep (bs, tri, c) v = (bs, tri, c) := by
          unfold pnbStep
          simp [hg]
        rw [hstep]
        have hr := ih bs tri c (by simpa [hg] using hdrest) hmrest
        refine ⟨hr.1, ?_⟩
        rw [hr.2]
        simp [List.flatMap_cons, hg]
      · have hpn := processNested_dense l v c (by simpa [hg] using hdv)
          (by simpa [hg] using hmv)
        have hstep : pnbStep (bs, tri, c) v
            = (bs, tri ++ (processNested l v c).2.1.map (fun ni => ⟨v, ni.1, ni.2⟩),
               c + l.length) := by
          unfold pnbStep
          simp only [hg, if_neg he]
          rw [show (fun _ : List NItem => (processNested l v c).1)
              = (fun _ : List NItem => l) from by rw [hpn.1]]
          rw [alistUpd_const_self bs v l hg, hpn.2]
        rw [hstep]
        have hr := ih bs
          (tri ++ (processNested l v c).2.1.map
            (fun ni => (⟨v, ni.1, ni.2⟩ : NestedIdx)))
          (c + l.length)
          (by
            have hlen2 : (((alistGet bs v).getD []).map NItem.id).length = l.length := by
              simp [hg]
            rw [hlen2] at hdrest
            exact hdrest)
          hmrest
        refine ⟨hr.1, ?_⟩
        rw [hr.2]
        simp only [List.flatMap_cons, List.length_append, List.length_map, hg,
          Option.getD_some]
        omega

theorem process_array_dense (l : List PItem) (v : String) (c : Nat)
    (hd : denseFrom c (l.flatMap pitemTravIds) = true)
    (hm : (l.all (fun p => p.method == v &&
      (match p.nested with
       | none => true
       | some bs => nestedMethodsOk bs))) = true) :
    (process_array l v c).1 = l ∧
    (process_array l v c).2.2 = c + (l.flatMap pitemTravIds).length := by
  induction l generalizing c with
  | nil => exact ⟨rfl, rfl⟩
  | cons it rest ih =>
    obtain ⟨nm, idv, mth, nst⟩ := it
    simp only [List.flatMap_cons] at hd ⊢
    simp only [List.all_cons, Bool.and_eq_true, beq_iff_eq] at hm
    obtain ⟨⟨hmv, hmn⟩, hmrest⟩ := hm
    replace hmv : mth = v := hmv
    cases nst with
    | none =>
      simp only [pitemTravIds, List.append_eq, List.cons_append, List.nil_append,
        denseFrom, Bool.and_eq_true, beq_iff_eq] at hd
      obtain ⟨hid, hdrest⟩ := hd
      replace hid : idv = some c := hid
      have hrest := ih (c + 1) hdrest (by
        rw [List.all_eq_true]
        intro p hp
        exact List.all_eq_true.mp hmrest p hp)
      constructor
      · simp only [process_array]
        rw [hrest.1, hid, hmv]
      · simp only [process_array]
        rw [hrest.2]
        simp only [pitemTravIds, List.append_eq, List.length_cons, List.length_append,
          List.length_nil, List.nil_append]
        omega
    | some bs =>
      simp only [pitemTravIds, List.append_eq, List.cons_append, denseFrom,
        Bool.and_eq_true, beq_iff_eq, denseFrom_append] at hd
      obtain ⟨hid, hdbs, hdrest⟩ := hd
      replace hid : idv = some c := hid
      replace hmn : nestedMethodsOk bs = true := hmn
      have hdbs2 : denseFrom (c + 1)
          (VERBS.flatMap (fun v2 => ((alistGet bs v2).getD []).map NItem.id)) = true := hdbs
      have hpnb := foldl_pnbStep_dense VERBS bs [] (c + 1) hdbs2 hmn
      have hrest := ih ((c + 1) + (nestedTravIds bs).length) hdrest (by
        rw [List.all_eq_true]
        intro p hp
        exact List.all_eq_true.mp hmrest p hp)
      have hctr : (processNestedBuckets bs (c + 1)).2.2
          = (c + 1) + (nestedTravIds bs).length := hpnb.2
      have hb : (processNestedBuckets bs (c + 1)).1 = bs := hpnb.1
      constructor
      · simp only [process_array]
        rw [hctr, hrest.1, hb, hid, hmv]
      · simp only [process_array]
        rw [hctr, hrest.2]
        simp only [pitemTravIds, List.append_eq, List.length_cons, List.length_append]
        omega

theorem foldl_pfStep_dense (vs : List String) :
    ∀ (doc : List (String × List PItem)) (groups : List (String × List IdxEntry)) (c : Nat),
    denseFrom c (vs.flatMap (fun v => ((alistGet doc v).getD []).flatMap pitemTravIds)) = true →
    (vs.all (fun v => ((alistGet doc v).getD []).all (fun p => p.method == v &&
      (match p.nested with
       | none => true
       | some bs => nestedMethodsOk bs)))) = true →
    (vs.foldl pfStep (doc, groups, c)).1 = doc := by
  induction vs with
  | nil => intro doc groups c _ _; rfl
  | cons v rest ih =>
    intro doc groups c hd hm
    simp only [List.flatMap_cons, denseFrom_append, Bool.and_eq_true] at hd
    simp only [List.all_cons, Bool.and_eq_true] at hm
    obtain ⟨hdv, hdrest⟩ := hd
    obtain ⟨hmv, hmrest⟩ := hm
    simp only [List.foldl_cons]
    cases hg : alistGet doc v with
    | none =>
      have hstep : pfStep (doc, groups, c) v = (doc, groups, c) := by
        unfold pfStep
        simp [hg]
      rw [hstep]
      exact ih doc groups c (by simpa [hg] using hdrest) hmrest
    | some l =>
      by_cases he : l.isEmpty = true
      · have hl0 : l = [] := List.isEmpty_iff.mp he
        subst hl0
        have hstep : pfStep (doc, groups, c) v = (doc, groups, c) := by
          unfold pfStep
          simp [hg]
        rw [hstep]
        exact ih doc groups c (by simpa [hg] using hdrest) hmrest
      · have hpa := process_array_dense l v c (by simpa [hg] using hdv)
          (by simpa [hg] using hmv)
        have hstep : pfStep (doc, groups, c) v
            = (doc, groups ++ [(v, (process_array l v c).2.1)],
               c + (l.flatMap pitemTravIds).length) := by
          unfold pfStep
          simp only [hg, if_neg he]
          rw [show (fun _ : List PItem => (process_array l v c).1)
              = (fun _ : List PItem => l) from by rw [hpa.1]]
          rw [alistUpd_const_self doc v l hg, hpa.2]
        rw [hstep]
        refine ih doc _ (c + (l.flatMap pitemTravIds).length)
          (by
            have : (((alistGet doc v).getD []).flatMap pitemTravIds).length
                = (l.flatMap pitemTravIds).length := by
              simp [hg]
            rw [this] at hdrest
            exact hdrest)
          hmrest

/-- Claim C2 as amended: the triples the Options Indexer emits equal the
method, name and id carried by the catalog entries after the indexer's own
id/method stamping; and because the stamping replays the catalog traversal
with a counter starting at 1, the stamping is the identity — so the
emitted triples equal the ids the catalog already carried — whenever the
catalog's ids are exactly the dense traversal numbering `1..N` and each
entry's method matches its verb bucket (which the reference projector
violates when a parent entity with nested entries has several
operations). -/
theorem c2_amended (doc : List (String × List PItem)) :
    (process_file doc).2.1 = projDoc (process_file doc).1 ∧
    (denseFrom 1 (docTravIds doc) = true → docMethodsOk doc = true →
      (process_file doc).1 = doc ∧ (process_file doc).2.1 = projDoc doc) := by
  have ha : (process_file doc).2.1 = projDoc (process_file doc).1 := by
    unfold process_file projDoc
    have h := foldl_pfStep_proj VERBS (by decide) (doc, [], 1)
    simpa using h
  refine ⟨ha, fun hd hm => ?_⟩
  have hb : (process_file doc).1 = doc := by
    unfold process_file
    exact foldl_pfStep_dense VERBS doc [] 1 hd hm
  have hp : projDoc doc = projDoc (process_file doc).1 := by rw [hb]
  exact ⟨hb, by rw [hp]; exact ha⟩

/-- Claim C2, refuted at the catalog built from `exPaths`: the ids the
Options Indexer emits into the navigation index are `[1, 2, 3, 4]`, but
the catalog entries it read carry ids `[1, 4, 3, 4]` — `process_array`
re-stamps every `id` from its own counter instead of projecting the
carried one, so on a catalog whose ids are not already the dense traversal
numbering the emitted id of an entry differs from the id that same catalog
entry carries. -/
theorem c2_counterexample :
    indexIds (process_file exDoc).2.1 = [1, 2, 3, 4] ∧
    catalogIds exDoc = [1, 4, 3, 4] ∧
    indexIds (process_file exDoc).2.1 ≠ catalogIds exDoc :=
  ⟨rfl, rfl, by decide⟩

/-- Witness for the amended claim C2, at the catalog built from
`exGoodPaths`: its carried ids are the dense traversal numbering and every
method matches its verb bucket, so the indexer's re-stamping is the
identity and the emitted groups are the read-only projection of the
catalog. -/
theorem c2_amended_witness :
    (process_file exGoodDoc).1 = exGoodDoc ∧
    (process_file exGoodDoc).2.1 = projDoc exGoodDoc :=
  (c2_amended exGoodDoc).2 (by decide) (by decide)

end IfsExtractor
